import Mathlib

/-!
Richardson-Lucy deconvolution filter (`src/deconvfilter.cpp`).

A shallow embedding of the two variants of `DeconvFilter` and of the helpers
of `deconvfilter.cpp`.

Conventions of the embedding.

* A `double` is a rational number: arithmetic is exact, rounding is not
  modelled.  A quotient `x / 0` has no exact value (the machine produces an
  infinity or a NaN); in Lean it is `0`.  The model therefore says nothing
  about the values the code produces once it has divided by zero, and no
  theorem below relies on the value of such a quotient: each one either
  holds whatever that value is, or is about divisors that are not zero, or
  shows that the code reaches a division by zero.
* An array is a list; every access is checked.  An access outside the array
  is undefined behaviour in C++ and makes the embedded function return
  `none`.  So does reading through a null pointer.
* The arrays of an engine are named (`Arr`, `CArr`); a pointer argument of a
  member function is the name of the array it points to, so a call whose
  arguments alias (`divide(scratch, orig, scratch)`) is embedded as written.
* `int` and `unsigned int` quantities that count or measure are natural
  numbers, computed coordinates are integers; sizes are assumed small enough
  that no machine integer wraps.
-/

namespace Deconv

/-! ## Checked memory access and counted loops -/

/-- Checked read at a natural-number index. -/
def rdN {α : Type} (a : List α) (i : Nat) : Option α := a[i]?

/-- Checked write at a natural-number index. -/
def wrN {α : Type} (a : List α) (i : Nat) (v : α) : Option (List α) :=
  if i < a.length then some (a.set i v) else none

/-- Checked read at an `int` index. -/
def rd {α : Type} (a : List α) (i : Int) : Option α :=
  if 0 ≤ i then rdN a i.toNat else none

/-- Checked write at an `int` index. -/
def wr {α : Type} (a : List α) (i : Int) (v : α) : Option (List α) :=
  if 0 ≤ i then wrN a i.toNat v else none

/-- The loop `for (i = start; i < start + count; i++) body`: `forUp body start count`
runs `body start`, `body (start+1)`, ... and stops at the first failure. -/
def forUp {σ : Type} (body : Nat → σ → Option σ) : Nat → Nat → σ → Option σ
  | _, 0, s => some s
  | i, k + 1, s => (body i s).bind (forUp body (i + 1) k)

/-! ## The direct engine (`#ifndef USE_FFT`) -/

/-- Names of the four `double` arrays the direct engine works on.  `buffer` is
the caller's image; `img`, `scratch`, `scratch2` are allocated by the
constructor. -/
inductive Arr where
  | buffer
  | img
  | scratch
  | scratch2
  deriving DecidableEq, Repr

/-- State of a direct `DeconvFilter` object together with the arrays its
pointer members point to. -/
structure DeconvFilter where
  _width : Nat
  _height : Nat
  _psfWidth : Nat
  _psfHeight : Nat
  _niter : Nat
  _size : Nat
  _psf : List ℚ
  buffer : List ℚ
  img : List ℚ
  scratch : List ℚ
  scratch2 : List ℚ
  deriving DecidableEq, Repr

/-- The member `_buffer`: the constructor stores the caller's pointer. -/
def _buffer : Arr := Arr.buffer

/-- The member `orig`: the constructor initialises it with the same pointer
(`_buffer(buffer), orig(buffer)`), so it names the caller's array too. -/
def orig : Arr := Arr.buffer

/-- Contents of a named array. -/
def DeconvFilter.get (s : DeconvFilter) : Arr → List ℚ
  | Arr.buffer => s.buffer
  | Arr.img => s.img
  | Arr.scratch => s.scratch
  | Arr.scratch2 => s.scratch2

/-- Replace the contents of a named array. -/
def DeconvFilter.put (s : DeconvFilter) : Arr → List ℚ → DeconvFilter
  | Arr.buffer, v => { s with buffer := v }
  | Arr.img, v => { s with img := v }
  | Arr.scratch, v => { s with scratch := v }
  | Arr.scratch2, v => { s with scratch2 := v }

/-- The statement `p[i] = v` on a named array. -/
def DeconvFilter.store (s : DeconvFilter) (p : Arr) (i : Nat) (v : ℚ) : Option DeconvFilter :=
  (wrN (s.get p) i v).map (s.put p)

/-- Source `normalise(data, length)`: the first loop sums `data[0..length)`, the
second divides each of these elements by the sum.  There is no test of the
sum. -/
def normalise (data : List ℚ) (length : Nat) : Option (List ℚ) :=
  (forUp (fun i sum => (rdN data i).map (fun v => sum + v)) 0 length (0 : ℚ)).bind
    (fun sum => forUp (fun i d => (rdN d i).bind (fun v => wrN d i (v / sum))) 0 length data)

/-- Source `new double[n]`: an array of `n` elements with indeterminate
contents `init`. -/
def alloc (n : Nat) (init : Nat → ℚ) : List ℚ := (List.range n).map init

/-- Source constructor `DeconvFilter::DeconvFilter` of the direct engine (the
name `construct` avoids a clash with the name of the type).
`memcpy` reads `psfWidth * psfHeight` elements of `inputPsf`; `init` gives the
indeterminate contents of the freshly allocated arrays. -/
def DeconvFilter.construct (width height niter : Nat) (inputPsf : List ℚ)
    (psfWidth psfHeight : Nat) (buffer : List ℚ) (init : Arr → Nat → ℚ) :
    Option DeconvFilter :=
  let psfSize := psfWidth * psfHeight
  if inputPsf.length < psfSize then none
  else
    (normalise (inputPsf.take psfSize) psfSize).map (fun psf =>
      { _width := width
        _height := height
        _psfWidth := psfWidth
        _psfHeight := psfHeight
        _niter := niter
        _size := width * height
        _psf := psf
        buffer := buffer
        img := alloc (width * height) (init Arr.img)
        scratch := alloc (width * height) (init Arr.scratch)
        scratch2 := alloc (width * height) (init Arr.scratch2) })

/-- The loop over `px` in `convolve`, for fixed `x`, `y`, `py`: `n` taps are
left, `pIndex` is the running PSF index.  It returns the state and `pIndex`.
The `break` leaves the loop without the increment of `pIndex`. -/
def DeconvFilter.convolvePx (result input : Arr) (x y py : Nat) (index : Int) :
    Nat → Nat → Nat → DeconvFilter → Option (DeconvFilter × Nat)
  | _, 0, pIndex, s => some (s, pIndex)
  | px, n + 1, pIndex, s =>
    match rdN s._psf pIndex with
    | none => none
    | some p =>
      if p = 0 then DeconvFilter.convolvePx result input x y py index (px + 1) n (pIndex + 1) s
      else
        let absY : Int := (y : Int) - ((s._psfHeight / 2 : Nat) : Int) + (py : Int)
        if absY < 0 ∧ absY ≥ (s._height : Int) then some (s, pIndex)
        else
          let absX : Int := (x : Int) - ((s._psfWidth / 2 : Nat) : Int) + (px : Int)
          if absX ≥ 0 ∨ absX < (s._width : Int) then
            match rd (s.get input) (absX + (s._width : Int) * absY) with
            | none => none
            | some v =>
              match rd (s.get result) index with
              | none => none
              | some r =>
                match wr (s.get result) index (r + v * p) with
                | none => none
                | some res =>
                  DeconvFilter.convolvePx result input x y py index (px + 1) n (pIndex + 1)
                    (s.put result res)
          else DeconvFilter.convolvePx result input x y py index (px + 1) n (pIndex + 1) s

/-- The loop over `py` in `convolve`, for fixed `x`, `y`. -/
def DeconvFilter.convolvePy (result input : Arr) (x y : Nat) (index : Int) :
    Nat → Nat → Nat → DeconvFilter → Option (DeconvFilter × Nat)
  | _, 0, pIndex, s => some (s, pIndex)
  | py, n + 1, pIndex, s =>
    match DeconvFilter.convolvePx result input x y py index 0 s._psfWidth pIndex s with
    | none => none
    | some (s1, pIndex1) => DeconvFilter.convolvePy result input x y index (py + 1) n pIndex1 s1

/-- Body of the two outer loops of `convolve`: the work for the pixel `(x, y)`. -/
def DeconvFilter.convolvePixel (result input : Arr) (y x : Nat) (s : DeconvFilter) :
    Option DeconvFilter :=
  (DeconvFilter.convolvePy result input x y ((x : Int) + (y : Int) * (s._width : Int)) 0
    s._psfHeight 0 s).map Prod.fst

/-- Source `DeconvFilter::convolve(result, input)`: `result` is zeroed, then
`y` and `x` run from 0 to 1023 as in the source. -/
def DeconvFilter.convolve (result input : Arr) (s : DeconvFilter) : Option DeconvFilter :=
  (forUp (fun index s => s.store result index 0) 0 s._size s).bind
    (forUp (fun y s => forUp (DeconvFilter.convolvePixel result input y) 0 1024 s) 0 1024)

/-- Source `DeconvFilter::saturate(image)`. -/
def DeconvFilter.saturate (image : Arr) (s : DeconvFilter) : Option DeconvFilter :=
  forUp (fun i s =>
    (rdN (s.get image) i).bind (fun v =>
      if v > 255 then s.store image i 255
      else if v < 0 then s.store image i 0
      else some s)) 0 s._size s

/-- Source `DeconvFilter::divide(quotient, dividend, divisor)`.  The source has
no test of the divisor; for a divisor 0 the machine stores an infinity or a
NaN, which the rational quotient of the model does not represent. -/
def DeconvFilter.divide (quotient dividend divisor : Arr) (s : DeconvFilter) :
    Option DeconvFilter :=
  forUp (fun i s =>
    (rdN (s.get dividend) i).bind (fun a =>
      (rdN (s.get divisor) i).bind (fun b => s.store quotient i (a / b)))) 0 s._size s

/-- Source `DeconvFilter::multiply(product, factorA, factorB)`. -/
def DeconvFilter.multiply (product factorA factorB : Arr) (s : DeconvFilter) :
    Option DeconvFilter :=
  forUp (fun i s =>
    (rdN (s.get factorA) i).bind (fun a =>
      (rdN (s.get factorB) i).bind (fun b => s.store product i (a * b)))) 0 s._size s

/-- Source `DeconvFilter::scale(product, scalar)`. -/
def DeconvFilter.scale (product : Arr) (scalar : ℚ) (s : DeconvFilter) : Option DeconvFilter :=
  forUp (fun i s =>
    (rdN (s.get product) i).bind (fun v => s.store product i (v * scalar))) 0 s._size s

/-- Source `DeconvFilter::offset(product, amount)`. -/
def DeconvFilter.offset (product : Arr) (amount : ℚ) (s : DeconvFilter) : Option DeconvFilter :=
  forUp (fun i s =>
    (rdN (s.get product) i).bind (fun v => s.store product i (v + amount))) 0 s._size s

/-- First loop of `process`: `img[index] = _buffer[index]; orig[index] = _buffer[index];`. -/
def DeconvFilter.copyIn (s : DeconvFilter) : Option DeconvFilter :=
  forUp (fun index s =>
    (rdN (s.get _buffer) index).bind (fun v =>
      (s.store Arr.img index v).bind (fun s1 =>
        (rdN (s1.get _buffer) index).bind (fun w => s1.store orig index w)))) 0 s._size s

/-- Body of the iteration loop of `process`. -/
def DeconvFilter.iteration (s : DeconvFilter) : Option DeconvFilter :=
  (s.convolve Arr.scratch Arr.img).bind (fun s1 =>
    (s1.divide Arr.scratch orig Arr.scratch).bind (fun s2 =>
      (s2.convolve Arr.scratch2 Arr.scratch).bind (fun s3 =>
        (s3.multiply Arr.img Arr.img Arr.scratch2).bind (fun s4 =>
          s4.saturate Arr.img))))

/-- The iteration loop of `process`, run `n` times. -/
def DeconvFilter.iterations (n : Nat) (s : DeconvFilter) : Option DeconvFilter :=
  forUp (fun _ s => s.iteration) 0 n s

/-- Last loop of `process`: `_buffer[index] = img[index]`. -/
def DeconvFilter.copyOut (s : DeconvFilter) : Option DeconvFilter :=
  forUp (fun index s =>
    (rdN (s.get Arr.img) index).bind (fun v => s.store _buffer index v)) 0 s._size s

/-- Source `DeconvFilter::process()` of the direct engine (timing and printing
left out). -/
def DeconvFilter.process (s : DeconvFilter) : Option DeconvFilter :=
  s.copyIn.bind (fun s1 => (s1.iterations s1._niter).bind DeconvFilter.copyOut)

/-! ## The transform engine (`#ifdef USE_FFT`) -/

/-- Source type `fftw_complex`, a `double[2]`: real part, imaginary part. -/
abbrev fftw_complex : Type := ℚ × ℚ

/-- Source macro `EPS`. -/
def EPS : ℚ := 1 / 1000000

/-- Names of the five complex arrays of the transform engine (`in_` is the
member `in`). -/
inductive CArr where
  | in_
  | scratch
  | orig
  | fftPsf
  | conjFftPsf
  deriving DecidableEq, Repr

/-- State of a `DeconvFilter` object of the `USE_FFT` variant together with its
arrays.  The transform plans belong to the external library and are passed to
the functions that execute them. -/
structure DeconvFilterFFT where
  _width : Nat
  _height : Nat
  _niter : Nat
  _size : Nat
  _buffer : List ℚ
  in_ : List fftw_complex
  scratch : List fftw_complex
  orig : List fftw_complex
  fftPsf : List fftw_complex
  conjFftPsf : List fftw_complex
  deriving DecidableEq, Repr

/-- Contents of a named complex array. -/
def DeconvFilterFFT.get (s : DeconvFilterFFT) : CArr → List fftw_complex
  | CArr.in_ => s.in_
  | CArr.scratch => s.scratch
  | CArr.orig => s.orig
  | CArr.fftPsf => s.fftPsf
  | CArr.conjFftPsf => s.conjFftPsf

/-- Replace the contents of a named complex array. -/
def DeconvFilterFFT.put (s : DeconvFilterFFT) : CArr → List fftw_complex → DeconvFilterFFT
  | CArr.in_, v => { s with in_ := v }
  | CArr.scratch, v => { s with scratch := v }
  | CArr.orig, v => { s with orig := v }
  | CArr.fftPsf, v => { s with fftPsf := v }
  | CArr.conjFftPsf, v => { s with conjFftPsf := v }

/-- The statement `a[i][0] = v` on a list of complex numbers. -/
def setRe (a : List fftw_complex) (i : Int) (v : ℚ) : Option (List fftw_complex) :=
  (rd a i).bind (fun c => wr a i (v, c.2))

/-- The statement `a[i][1] = v` on a list of complex numbers. -/
def setIm (a : List fftw_complex) (i : Int) (v : ℚ) : Option (List fftw_complex) :=
  (rd a i).bind (fun c => wr a i (c.1, v))

/-- The statement `p[i][0] = v` on a named complex array. -/
def DeconvFilterFFT.storeRe (s : DeconvFilterFFT) (p : CArr) (i : Nat) (v : ℚ) :
    Option DeconvFilterFFT :=
  (setRe (s.get p) (i : Int) v).map (s.put p)

/-- The statement `p[i][1] = v` on a named complex array. -/
def DeconvFilterFFT.storeIm (s : DeconvFilterFFT) (p : CArr) (i : Nat) (v : ℚ) :
    Option DeconvFilterFFT :=
  (setIm (s.get p) (i : Int) v).map (s.put p)

/-- The loop `do body while (--n > -1)` started at `n ≥ 0`: it runs `body n`,
`body (n-1)`, ..., `body 0`. -/
def doWhileDown {σ : Type} (body : Nat → σ → Option σ) : Nat → σ → Option σ
  | 0, s => body 0 s
  | n + 1, s => (body (n + 1) s).bind (doWhileDown body n)

/-- One pass of the complex loop of `multVec` under `if (scale)`. -/
def DeconvFilterFFT.multVecComplexBody (lval a b : CArr) (n : Nat) (s : DeconvFilterFFT) :
    Option DeconvFilterFFT :=
  (rdN (s.get a) n).bind (fun an =>
    (rdN (s.get b) n).bind (fun bn =>
      let tmp : ℚ := an.1 * bn.1 - an.2 * bn.2
      (s.storeIm lval n (an.1 * bn.2 + an.2 * bn.1)).bind (fun s1 =>
        s1.storeRe lval n tmp)))

/-- One pass of the real loop of `multVec` under `if (scale)`: the source
writes component `[1]`. -/
def DeconvFilterFFT.multVecRealBody (lval a b : CArr) (n : Nat) (s : DeconvFilterFFT) :
    Option DeconvFilterFFT :=
  (rdN (s.get a) n).bind (fun an =>
    (rdN (s.get b) n).bind (fun bn => s.storeIm lval n (an.1 * bn.1)))

/-- Source `DeconvFilter::multVec(lval, a, b, n, scale)`.  `scale` is `none` for
a null pointer and `some v` for a pointer to `v`.  Where the source takes the
`else` branch of `if (scale)` it first evaluates `*scale` with `scale` null,
which is undefined. -/
def DeconvFilterFFT.multVec (lval a b : CArr) (n : Int) (scale : Option ℚ)
    (s : DeconvFilterFFT) : Option DeconvFilterFFT :=
  let n1 : Int := n - 1
  if n1 ≥ 0 then
    match scale with
    | some _ => doWhileDown (DeconvFilterFFT.multVecComplexBody lval a b) n1.toNat s
    | none => none
  else
    let n2 : Int := n1 * (-1) - 1
    match scale with
    | some _ => doWhileDown (DeconvFilterFFT.multVecRealBody lval a b) n2.toNat s
    | none => none

/-- Source `DeconvFilter::divVec(lval, a, b, n)`. -/
def DeconvFilterFFT.divVec (lval a b : CArr) (n : Int) (s : DeconvFilterFFT) :
    Option DeconvFilterFFT :=
  forUp (fun i s =>
    (rdN (s.get a) i).bind (fun ai =>
      (rdN (s.get b) i).bind (fun bi =>
        (s.storeRe lval i (ai.1 / (bi.1 + EPS))).bind (fun s1 =>
          (rdN (s1.get a) i).bind (fun ai1 =>
            (rdN (s1.get b) i).bind (fun bi1 =>
              s1.storeIm lval i (ai1.2 / (bi1.2 + EPS)))))))) 0 n.toNat s

/-- First pair of loops of `centrePsf`: `mat[index][0] = 0.0; mat[index][1] = 0.0`
for `width * height` consecutive values of `index`. -/
def centrePsfZero (width height : Nat) (mat : List fftw_complex) :
    Option (List fftw_complex × Int) :=
  forUp (fun _ st =>
    forUp (fun _ st =>
      (setRe st.1 st.2 0).bind (fun m1 =>
        (setIm m1 st.2 0).map (fun m2 => (m2, st.2 + 1)))) 0 height st) 0 width (mat, 0)

/-- Second pair of loops of `centrePsf`: `i` runs from `psfWidth/2` to
`psfWidth - 1`, `j` from `psfHeight/2` to `psfHeight - 1`, and `index` is
advanced by `width - psfWidth/2` after each pass of the outer loop. -/
def centrePsfCopy (input : List ℚ) (width psfWidth psfHeight : Nat)
    (mat : List fftw_complex) : Option (List fftw_complex × Int) :=
  forUp (fun i st =>
    (forUp (fun j st =>
      (rdN input (i * psfWidth + j)).bind (fun v =>
        (setRe st.1 st.2 v).map (fun m1 => (m1, st.2 + 1))))
      (psfHeight / 2) (psfHeight - psfHeight / 2) st).map
        (fun st1 => (st1.1, st1.2 + ((width : Int) - ((psfWidth / 2 : Nat) : Int)))))
    (psfWidth / 2) (psfWidth - psfWidth / 2) (mat, 0)

/-- Source `DeconvFilter::centrePsf(mat, input, width, height, psfWidth, psfHeight)`;
the value is the new contents of `mat`. -/
def centrePsf (mat : List fftw_complex) (input : List ℚ)
    (width height psfWidth psfHeight : Nat) : Option (List fftw_complex) :=
  (centrePsfZero width height mat).bind (fun st =>
    (centrePsfCopy input width psfWidth psfHeight st.1).map Prod.fst)

/-- Source `fftw_alloc_complex(n)`: `n` elements with indeterminate contents. -/
def fftw_alloc_complex (n : Nat) (init : Nat → fftw_complex) : List fftw_complex :=
  (List.range n).map init

/-- Source constructor `DeconvFilter::DeconvFilter` of the transform engine.
`fft` is the forward transform the library computes for the plan made in the
constructor.  The last loop stores `fftPsf[i][0]` and `-fftPsf[i][0]`. -/
def DeconvFilterFFT.construct (fft : List fftw_complex → List fftw_complex)
    (width height niter : Nat) (inputPsf : List ℚ) (psfWidth psfHeight : Nat)
    (buffer : List ℚ) (init : CArr → Nat → fftw_complex) : Option DeconvFilterFFT :=
  let size := width * height
  (centrePsf (fftw_alloc_complex size (init CArr.fftPsf)) inputPsf width height
      psfWidth psfHeight).bind (fun centred =>
    let s0 : DeconvFilterFFT :=
      { _width := width
        _height := height
        _niter := niter
        _size := size
        _buffer := buffer
        in_ := fftw_alloc_complex size (init CArr.in_)
        scratch := fftw_alloc_complex size (init CArr.scratch)
        orig := fftw_alloc_complex size (init CArr.orig)
        fftPsf := fft centred
        conjFftPsf := fftw_alloc_complex size (init CArr.conjFftPsf) }
    forUp (fun i s =>
      (rdN (s.get CArr.fftPsf) i).bind (fun c =>
        (s.storeRe CArr.conjFftPsf i c.1).bind (fun s1 =>
          (rdN (s1.get CArr.fftPsf) i).bind (fun c1 =>
            s1.storeIm CArr.conjFftPsf i (-c1.1))))) 0 size s0)

/-- The argument `&scale` of the calls of `multVec` in `process`: the address of
the local variable `scale`, a pointer that is not null.  The variable holds a
null pointer, read as a `double` that is `0`. -/
def scaleArg : Option ℚ := some 0

/-- First loop of `process` of the transform engine:
`orig[i][0] = in[i][0] = _buffer[i]; orig[i][1] = in[i][1] = 0.0;`. -/
def DeconvFilterFFT.copyIn (s : DeconvFilterFFT) : Option DeconvFilterFFT :=
  forUp (fun i s =>
    (rdN s._buffer i).bind (fun v =>
      (s.storeRe CArr.in_ i v).bind (fun s1 =>
        (s1.storeRe CArr.orig i v).bind (fun s2 =>
          (s2.storeIm CArr.in_ i 0).bind (fun s3 =>
            s3.storeIm CArr.orig i 0))))) 0 s._size s

/-- Body of the iteration loop of `process` of the transform engine; `fft` and
`ifft` are what `fftw_execute` computes for the forward and backward plans. -/
def DeconvFilterFFT.iteration (fft ifft : List fftw_complex → List fftw_complex)
    (s : DeconvFilterFFT) : Option DeconvFilterFFT :=
  ((s.put CArr.scratch (fft s.in_)).multVec CArr.scratch CArr.fftPsf CArr.scratch
      (s._size : Int) scaleArg).bind (fun s1 =>
    ((s1.put CArr.scratch (ifft s1.scratch)).divVec CArr.scratch CArr.orig CArr.scratch
        (s1._size : Int)).bind (fun s2 =>
      ((s2.put CArr.scratch (fft s2.scratch)).multVec CArr.scratch CArr.scratch
          CArr.conjFftPsf (s2._size : Int) scaleArg).bind (fun s3 =>
        (s3.put CArr.scratch (ifft s3.scratch)).multVec CArr.in_ CArr.in_ CArr.scratch
          (s3._size : Int) scaleArg)))

/-- Last loop of `process` of the transform engine: `_buffer[i] = in[i][0]`. -/
def DeconvFilterFFT.copyOut (s : DeconvFilterFFT) : Option DeconvFilterFFT :=
  forUp (fun i s =>
    (rdN s.in_ i).bind (fun c =>
      (wrN s._buffer i c.1).map (fun b => { s with _buffer := b }))) 0 s._size s

/-- Source `DeconvFilter::process()` of the transform engine. -/
def DeconvFilterFFT.process (fft ifft : List fftw_complex → List fftw_complex)
    (s : DeconvFilterFFT) : Option DeconvFilterFFT :=
  s.copyIn.bind (fun s1 =>
    (forUp (fun _ s => s.iteration fft ifft) 0 s1._niter s1).bind DeconvFilterFFT.copyOut)

/-! ## Value-level functions used in statements and proofs -/

/-- The list `l` with the entries `i, ..., i + k - 1` replaced by the values
of `val`. -/
def fill {α : Type} (val : Nat → α) : Nat → Nat → List α → List α
  | _, 0, l => l
  | i, k + 1, l => fill val (i + 1) k (l.set i (val i))

/-- Every array of the engine has `_size` elements. -/
def DeconvFilter.WF (s : DeconvFilter) : Prop :=
  s.buffer.length = s._size ∧ s.img.length = s._size ∧
    s.scratch.length = s._size ∧ s.scratch2.length = s._size

/-- Two engine states have the same dimensions, iteration count and PSF. -/
def DeconvFilter.SameParams (s t : DeconvFilter) : Prop :=
  s._width = t._width ∧ s._height = t._height ∧ s._psfWidth = t._psfWidth ∧
    s._psfHeight = t._psfHeight ∧ s._niter = t._niter ∧ s._size = t._size ∧ s._psf = t._psf

/-- The contents `convolve(result, input)` leaves in `result` when `input`
holds `input`: the source function run on the arrays `scratch` and `img`. -/
def DeconvFilter.convolved (s : DeconvFilter) (input : List ℚ) : Option (List ℚ) :=
  (((s.put Arr.img input).put Arr.scratch (List.replicate s._size 0)).convolve
    Arr.scratch Arr.img).map DeconvFilter.scratch

/-- Effect of `saturate` on one element. -/
def clamp (v : ℚ) : ℚ := if v > 255 then 255 else if v < 0 then 0 else v

/-- One Richardson-Lucy step on values:
`saturate(img * convolve(orig / convolve(img)))`. -/
def DeconvFilter.rlStep (s : DeconvFilter) (orig img : List ℚ) : Option (List ℚ) :=
  (s.convolved img).bind (fun blurred =>
    (s.convolved (List.zipWith (fun a b => a / b) orig blurred)).map (fun correction =>
      (List.zipWith (fun a b => a * b) img correction).map clamp))

/-- The `n`-fold iterate of a step that may fail. -/
def iterate {α : Type} (f : α → Option α) : Nat → α → Option α
  | 0, a => some a
  | n + 1, a => (f a).bind (iterate f n)

/-- The loop over `px` of `convolve` on values: `res` is the contents of
`result`, `input` the contents of a distinct array `input`. -/
def convolvePxL (psf : List ℚ) (w h pw ph : Nat) (input : List ℚ) (x y py : Nat)
    (index : Int) : Nat → Nat → Nat → List ℚ → Option (List ℚ × Nat)
  | _, 0, pIndex, res => some (res, pIndex)
  | px, n + 1, pIndex, res =>
    match rdN psf pIndex with
    | none => none
    | some p =>
      if p = 0 then convolvePxL psf w h pw ph input x y py index (px + 1) n (pIndex + 1) res
      else
        let absY : Int := (y : Int) - ((ph / 2 : Nat) : Int) + (py : Int)
        if absY < 0 ∧ absY ≥ (h : Int) then some (res, pIndex)
        else
          let absX : Int := (x : Int) - ((pw / 2 : Nat) : Int) + (px : Int)
          if absX ≥ 0 ∨ absX < (w : Int) then
            match rd input (absX + (w : Int) * absY) with
            | none => none
            | some v =>
              match rd res index with
              | none => none
              | some r =>
                match wr res index (r + v * p) with
                | none => none
                | some res1 =>
                  convolvePxL psf w h pw ph input x y py index (px + 1) n (pIndex + 1) res1
          else convolvePxL psf w h pw ph input x y py index (px + 1) n (pIndex + 1) res

/-- The loop over `py` of `convolve` on values. -/
def convolvePyL (psf : List ℚ) (w h pw ph : Nat) (input : List ℚ) (x y : Nat)
    (index : Int) : Nat → Nat → Nat → List ℚ → Option (List ℚ × Nat)
  | _, 0, pIndex, res => some (res, pIndex)
  | py, n + 1, pIndex, res =>
    match convolvePxL psf w h pw ph input x y py index 0 pw pIndex res with
    | none => none
    | some (res1, pIndex1) => convolvePyL psf w h pw ph input x y index (py + 1) n pIndex1 res1

/-- The work of `convolve` for the pixel `(x, y)` on values. -/
def convolvePixelL (psf : List ℚ) (w h pw ph : Nat) (input : List ℚ) (y x : Nat)
    (res : List ℚ) : Option (List ℚ) :=
  (convolvePyL psf w h pw ph input x y ((x : Int) + (y : Int) * (w : Int)) 0 ph 0 res).map
    Prod.fst

/-- The two outer loops of `convolve` on values. -/
def convolveL (psf : List ℚ) (w h pw ph : Nat) (input : List ℚ) (res : List ℚ) :
    Option (List ℚ) :=
  forUp (fun y r => forUp (convolvePixelL psf w h pw ph input y) 0 1024 r) 0 1024 res

/-- Every array of the transform engine has `_size` elements. -/
def DeconvFilterFFT.WF (s : DeconvFilterFFT) : Prop :=
  s._buffer.length = s._size ∧ s.in_.length = s._size ∧ s.scratch.length = s._size ∧
    s.orig.length = s._size ∧ s.fftPsf.length = s._size ∧ s.conjFftPsf.length = s._size

/-- A direct engine for 1024 x 1024 images with the one-element PSF `[1]`; every
pixel of the caller's image is `v`. -/
def unitEngine (niter : Nat) (v : ℚ) : DeconvFilter :=
  { _width := 1024
    _height := 1024
    _psfWidth := 1
    _psfHeight := 1
    _niter := niter
    _size := 1024 * 1024
    _psf := [1]
    buffer := List.replicate (1024 * 1024) v
    img := List.replicate (1024 * 1024) 0
    scratch := List.replicate (1024 * 1024) 0
    scratch2 := List.replicate (1024 * 1024) 0 }

/-- A small direct engine (2 x 2 image, PSF `[1]`) with no iteration; the
caller's image holds values below 0 and above 255. -/
def smallEngine : DeconvFilter :=
  { _width := 2
    _height := 2
    _psfWidth := 1
    _psfHeight := 1
    _niter := 0
    _size := 4
    _psf := [1]
    buffer := [-1, 0, 300, 7]
    img := [9, 9, 9, 9]
    scratch := [9, 9, 9, 9]
    scratch2 := [9, 9, 9, 9] }

/-- A small transform engine (2 x 2 image) with no iteration. -/
def smallEngineFFT : DeconvFilterFFT :=
  { _width := 2
    _height := 2
    _niter := 0
    _size := 4
    _buffer := [-1, 0, 300, 7]
    in_ := [(9, 9), (9, 9), (9, 9), (9, 9)]
    scratch := [(9, 9), (9, 9), (9, 9), (9, 9)]
    orig := [(9, 9), (9, 9), (9, 9), (9, 9)]
    fftPsf := [(1, 0), (1, 0), (1, 0), (1, 0)]
    conjFftPsf := [(1, 0), (1, 0), (1, 0), (1, 0)] }

/-- A direct engine for a 2 x 2 image `[1, 2, 3, 4]` (held by `img`) with the
three-tap PSF of width 3 and height 1, normalised. -/
def rowEngine : DeconvFilter :=
  { _width := 2
    _height := 2
    _psfWidth := 3
    _psfHeight := 1
    _niter := 1
    _size := 4
    _psf := [1 / 3, 1 / 3, 1 / 3]
    buffer := [1, 2, 3, 4]
    img := [1, 2, 3, 4]
    scratch := [0, 0, 0, 0]
    scratch2 := [0, 0, 0, 0] }

/-- A direct engine for a 2 x 2 image `[1, 2, 3, 4]` (held by `img`) with the
unit-impulse PSF `[1]`. -/
def impulseEngine : DeconvFilter :=
  { _width := 2
    _height := 2
    _psfWidth := 1
    _psfHeight := 1
    _niter := 1
    _size := 4
    _psf := [1]
    buffer := [1, 2, 3, 4]
    img := [1, 2, 3, 4]
    scratch := [0, 0, 0, 0]
    scratch2 := [0, 0, 0, 0] }

/-- A transform-engine state with one-element arrays, for calls of `multVec`. -/
def multEngine : DeconvFilterFFT :=
  { _width := 1
    _height := 1
    _niter := 0
    _size := 1
    _buffer := [0]
    in_ := [(1, 2)]
    scratch := [(3, 4)]
    orig := [(0, 0)]
    fftPsf := [(5, 6)]
    conjFftPsf := [(0, 0)] }

/-- The parameters for which the pixel loops of `convolve` match the image: a
1024 x 1024 image and the one-element PSF `[1]`. -/
def DeconvFilter.IsUnit1024 (s : DeconvFilter) : Prop :=
  s._width = 1024 ∧ s._psfWidth = 1 ∧ s._psfHeight = 1 ∧ s._psf = [1] ∧ s._size = 1024 * 1024

/-- The 1024 x 1024 engine with the PSF `[1]` whose working arrays hold
arbitrary values left by earlier calls. -/
def unitEngineStale (niter : Nat) (v : ℚ) : DeconvFilter :=
  { _width := 1024
    _height := 1024
    _psfWidth := 1
    _psfHeight := 1
    _niter := niter
    _size := 1024 * 1024
    _psf := [1]
    buffer := List.replicate (1024 * 1024) v
    img := List.replicate (1024 * 1024) 7
    scratch := List.replicate (1024 * 1024) (-3)
    scratch2 := List.replicate (1024 * 1024) 1000 }

/-- A direct engine state for calls of the elementwise operators: `img` holds
an image, `scratch` the all-1 array. -/
def onesEngine : DeconvFilter :=
  { _width := 2
    _height := 2
    _psfWidth := 1
    _psfHeight := 1
    _niter := 1
    _size := 4
    _psf := [1]
    buffer := [0, 0, 0, 0]
    img := [-2, 0, 300, 7]
    scratch := [1, 1, 1, 1]
    scratch2 := [5, 6, 7, 8] }

/-- The elementwise combination `a * u + b * v` of two arrays. -/
def lin (a b : ℚ) (u v : List ℚ) : List ℚ := List.zipWith (fun x y => a * x + b * y) u v

/-- The product of two complex numbers. -/
def cmul (x y : fftw_complex) : fftw_complex := (x.1 * y.1 - x.2 * y.2, x.1 * y.2 + x.2 * y.1)

/-- A transform-engine state with two-element arrays, for calls of `multVec`
on the first element only. -/
def multEngine2 : DeconvFilterFFT :=
  { _width := 2
    _height := 1
    _niter := 0
    _size := 2
    _buffer := [0, 0]
    in_ := [(1, 2), (7, 8)]
    scratch := [(3, 4), (9, 10)]
    orig := [(0, 0), (0, 0)]
    fftPsf := [(5, 6), (11, 12)]
    conjFftPsf := [(0, 0), (0, 0)] }

/-- A direct engine for a 3 x 3 image (held by `img`) with the uniform 2 x 2
PSF, normalised. -/
def quadEngine : DeconvFilter :=
  { _width := 3
    _height := 3
    _psfWidth := 2
    _psfHeight := 2
    _niter := 1
    _size := 9
    _psf := [1 / 4, 1 / 4, 1 / 4, 1 / 4]
    buffer := [1, 2, 3, 4, 5, 6, 7, 8, 9]
    img := [1, 2, 3, 4, 5, 6, 7, 8, 9]
    scratch := [0, 0, 0, 0, 0, 0, 0, 0, 0]
    scratch2 := [0, 0, 0, 0, 0, 0, 0, 0, 0] }

/-- A transform-engine state with one-element arrays, for calls of `divVec`:
`orig` holds the dividend `300 + 7i`, `scratch` the divisor `1 + 1i` and
`in_` the divisor `0 + 0i`. -/
def divEngine : DeconvFilterFFT :=
  { _width := 1
    _height := 1
    _niter := 0
    _size := 1
    _buffer := [0]
    in_ := [(0, 0)]
    scratch := [(1, 1)]
    orig := [(300, 7)]
    fftPsf := [(0, 0)]
    conjFftPsf := [(0, 0)] }

/-! ## Basic facts about the memory model -/

section Basics

variable {α σ : Type}

theorem forUp_zero (body : Nat → σ → Option σ) (i : Nat) (s : σ) :
    forUp body i 0 s = some s := rfl

theorem forUp_succ (body : Nat → σ → Option σ) (i k : Nat) (s : σ) :
    forUp body i (k + 1) s = (body i s).bind (forUp body (i + 1) k) := rfl

theorem forUp_congr (body body2 : Nat → σ → Option σ) (P : σ → Prop)
    (hstep : ∀ j s t, P s → body j s = some t → P t)
    (heq : ∀ j s, P s → body j s = body2 j s) :
    ∀ (k i : Nat) (s : σ), P s → forUp body i k s = forUp body2 i k s := by
  intro k
  induction k with
  | zero => intro i s _; rfl
  | succ k ih =>
    intro i s hs
    rw [forUp_succ, forUp_succ, ← heq i s hs]
    cases hb : body i s with
    | none => rfl
    | some t => exact ih (i + 1) t (hstep i s t hs hb)

theorem forUp_invariant (body : Nat → σ → Option σ) (P : σ → Prop)
    (hstep : ∀ j s t, P s → body j s = some t → P t) :
    ∀ (k i : Nat) (s t : σ), P s → forUp body i k s = some t → P t := by
  intro k
  induction k with
  | zero =>
    intro i s t hs h
    rw [forUp_zero] at h
    cases h
    exact hs
  | succ k ih =>
    intro i s t hs h
    rw [forUp_succ] at h
    cases hb : body i s with
    | none => rw [hb] at h; cases h
    | some u =>
      rw [hb] at h
      exact ih (i + 1) u t (hstep i s u hs hb) h

theorem rdN_eq_some (a : List α) (i : Nat) (h : i < a.length) : rdN a i = some a[i] := by
  unfold rdN
  exact List.getElem?_eq_getElem h

theorem wrN_eq_some (a : List α) (i : Nat) (v : α) (h : i < a.length) :
    wrN a i v = some (a.set i v) := by
  unfold wrN
  rw [if_pos h]

theorem fill_length (val : Nat → α) : ∀ (k i : Nat) (l : List α),
    (fill val i k l).length = l.length := by
  intro k
  induction k with
  | zero => intro i l; rfl
  | succ k ih =>
    intro i l
    show (fill val (i + 1) k (l.set i (val i))).length = l.length
    rw [ih, List.length_set]

theorem fill_getElem? (val : Nat → α) : ∀ (k i : Nat) (l : List α) (m : Nat),
    (fill val i k l)[m]? =
      if i ≤ m ∧ m < i + k ∧ m < l.length then some (val m) else l[m]? := by
  intro k
  induction k with
  | zero =>
    intro i l m
    have : ¬ (i ≤ m ∧ m < i + 0 ∧ m < l.length) := by omega
    rw [if_neg this]
    rfl
  | succ k ih =>
    intro i l m
    show (fill val (i + 1) k (l.set i (val i)))[m]? = _
    rw [ih, List.length_set, List.getElem?_set]
    by_cases h1 : i + 1 ≤ m ∧ m < i + 1 + k ∧ m < l.length
    · rw [if_pos h1, if_pos (by omega)]
    · rw [if_neg h1]
      by_cases h2 : i = m
      · subst h2
        by_cases h3 : i < l.length
        · rw [if_pos rfl, if_pos h3, if_pos (by omega)]
        · rw [if_pos rfl, if_neg h3, if_neg (by omega)]
          symm
          exact List.getElem?_eq_none (by omega)
      · rw [if_neg h2, if_neg (by omega)]

theorem fill_eq_map (val : Nat → α) (l : List α) :
    fill val 0 l.length l = (List.range l.length).map val := by
  apply List.ext_getElem?
  intro m
  rw [fill_getElem?]
  by_cases h : m < l.length
  · rw [if_pos (by omega), List.getElem?_map, List.getElem?_range h]
    rfl
  · rw [if_neg (by omega), List.getElem?_eq_none (by omega), List.getElem?_eq_none]
    simp only [List.length_map, List.length_range, List.length_zipWith]
    omega

theorem set_getElem_same (l : List α) (i : Nat) (h : i < l.length) : l.set i l[i] = l := by
  apply List.ext_getElem?
  intro m
  rw [List.getElem?_set]
  by_cases hm : i = m
  · subst hm
    rw [if_pos rfl, if_pos h, List.getElem?_eq_getElem h]
  · rw [if_neg hm]

end Basics

/-! ## Named arrays of the direct engine -/

section DirectState

@[simp] theorem DeconvFilter.get_put_same (s : DeconvFilter) (p : Arr) (v : List ℚ) :
    (s.put p v).get p = v := by
  cases p <;> rfl

@[simp] theorem DeconvFilter.get_put_ne (s : DeconvFilter) (p q : Arr) (v : List ℚ)
    (h : q ≠ p) : (s.put p v).get q = s.get q := by
  cases p <;> cases q <;> first | rfl | exact absurd rfl h

@[simp] theorem DeconvFilter.put_put (s : DeconvFilter) (p : Arr) (v w : List ℚ) :
    (s.put p v).put p w = s.put p w := by
  cases p <;> rfl

@[simp] theorem DeconvFilter.put_get (s : DeconvFilter) (p : Arr) : s.put p (s.get p) = s := by
  cases p <;> rfl

theorem DeconvFilter.put_comm (s : DeconvFilter) (p q : Arr) (v w : List ℚ) (h : p ≠ q) :
    (s.put p v).put q w = (s.put q w).put p v := by
  cases p <;> cases q <;> first | rfl | exact absurd rfl h

@[simp] theorem DeconvFilter.put_size (s : DeconvFilter) (p : Arr) (v : List ℚ) :
    (s.put p v)._size = s._size := by
  cases p <;> rfl

@[simp] theorem DeconvFilter.put_niter (s : DeconvFilter) (p : Arr) (v : List ℚ) :
    (s.put p v)._niter = s._niter := by
  cases p <;> rfl

@[simp] theorem DeconvFilter.put_psf (s : DeconvFilter) (p : Arr) (v : List ℚ) :
    (s.put p v)._psf = s._psf := by
  cases p <;> rfl

@[simp] theorem DeconvFilter.put_width (s : DeconvFilter) (p : Arr) (v : List ℚ) :
    (s.put p v)._width = s._width := by
  cases p <;> rfl

@[simp] theorem DeconvFilter.put_height (s : DeconvFilter) (p : Arr) (v : List ℚ) :
    (s.put p v)._height = s._height := by
  cases p <;> rfl

@[simp] theorem DeconvFilter.put_psfWidth (s : DeconvFilter) (p : Arr) (v : List ℚ) :
    (s.put p v)._psfWidth = s._psfWidth := by
  cases p <;> rfl

@[simp] theorem DeconvFilter.put_psfHeight (s : DeconvFilter) (p : Arr) (v : List ℚ) :
    (s.put p v)._psfHeight = s._psfHeight := by
  cases p <;> rfl

theorem DeconvFilter.sameParams_put (s : DeconvFilter) (p : Arr) (v : List ℚ) :
    (s.put p v).SameParams s := by
  cases p <;> exact ⟨rfl, rfl, rfl, rfl, rfl, rfl, rfl⟩

theorem DeconvFilter.SameParams.refl (s : DeconvFilter) : s.SameParams s :=
  ⟨rfl, rfl, rfl, rfl, rfl, rfl, rfl⟩

theorem DeconvFilter.SameParams.trans {s t u : DeconvFilter} (h1 : s.SameParams t)
    (h2 : t.SameParams u) : s.SameParams u := by
  obtain ⟨a1, a2, a3, a4, a5, a6, a7⟩ := h1
  obtain ⟨b1, b2, b3, b4, b5, b6, b7⟩ := h2
  exact ⟨a1.trans b1, a2.trans b2, a3.trans b3, a4.trans b4, a5.trans b5, a6.trans b6,
    a7.trans b7⟩

theorem DeconvFilter.store_eq_some (s : DeconvFilter) (p : Arr) (i : Nat) (v : ℚ)
    (h : i < (s.get p).length) : s.store p i v = some (s.put p ((s.get p).set i v)) := by
  unfold DeconvFilter.store
  rw [wrN_eq_some _ _ _ h]
  rfl

theorem DeconvFilter.store_self (s : DeconvFilter) (p : Arr) (i : Nat)
    (h : i < (s.get p).length) : s.store p i (s.get p)[i] = some s := by
  rw [s.store_eq_some p i _ h, set_getElem_same _ _ h, DeconvFilter.put_get]

/-- A loop whose pass `j` amounts to the store `dst[j] = val j` fills `dst`
with the values of `val`.  The pass may read `dst` itself: it is only required
to behave like the store on states whose `dst` still holds the original
entries from `j` on. -/
theorem DeconvFilter.forUp_fill (s0 : DeconvFilter) (dst : Arr) (val : Nat → ℚ)
    (body : Nat → DeconvFilter → Option DeconvFilter) (orig0 : List ℚ) :
    ∀ (k i : Nat) (l : List ℚ), l.length = orig0.length → i + k ≤ l.length →
      (∀ m, i ≤ m → l[m]? = orig0[m]?) →
      (∀ j (l2 : List ℚ), i ≤ j → j < i + k → l2.length = orig0.length →
        (∀ m, j ≤ m → l2[m]? = orig0[m]?) →
        body j (s0.put dst l2) = (s0.put dst l2).store dst j (val j)) →
      forUp body i k (s0.put dst l) = some (s0.put dst (fill val i k l)) := by
  intro k
  induction k with
  | zero => intro i l _ _ _ _; rfl
  | succ k ih =>
    intro i l hlen hik hl hbody
    rw [forUp_succ, hbody i l (le_refl i) (by omega) hlen hl,
      DeconvFilter.store_eq_some _ _ _ _ (by simp; omega)]
    show forUp body (i + 1) k (((s0.put dst l).put dst (((s0.put dst l).get dst).set i (val i))))
      = some (s0.put dst (fill val (i + 1) k (l.set i (val i))))
    rw [DeconvFilter.put_put, DeconvFilter.get_put_same]
    apply ih (i + 1) (l.set i (val i))
    · rw [List.length_set]; exact hlen
    · rw [List.length_set]; omega
    · intro m hm
      rw [List.getElem?_set, if_neg (by omega)]
      exact hl m (by omega)
    · intro j l2 hj hj2 hl2 hag
      exact hbody j l2 (by omega) (by omega) hl2 hag

/-- The array `p` as it stands in a state that differs from `s0` only in `dst`,
read at an index where `dst` still has its original entry. -/
theorem DeconvFilter.rdN_put (s0 : DeconvFilter) (dst p : Arr) (l2 : List ℚ) (j : Nat)
    (hj : j < (s0.get p).length) (hag : l2[j]? = (s0.get dst)[j]?) :
    rdN ((s0.put dst l2).get p) j = some (s0.get p)[j] := by
  by_cases hp : p = dst
  · subst hp
    rw [DeconvFilter.get_put_same]
    unfold rdN
    rw [hag]
    exact List.getElem?_eq_getElem hj
  · rw [DeconvFilter.get_put_ne _ _ _ _ hp]
    exact rdN_eq_some _ _ hj

/-- A loop over `0 ≤ i < _size` that stores `f a[i] b[i]` in `dst[i]` leaves
`zipWith f a b` in `dst`, whether or not `dst` is one of `a`, `b`. -/
theorem DeconvFilter.zipLoop (s : DeconvFilter) (f : ℚ → ℚ → ℚ) (dst a b : Arr)
    (hd : (s.get dst).length = s._size) (ha : (s.get a).length = s._size)
    (hb : (s.get b).length = s._size) :
    forUp (fun i t =>
      (rdN (t.get a) i).bind (fun x =>
        (rdN (t.get b) i).bind (fun y => t.store dst i (f x y)))) 0 s._size s
      = some (s.put dst (List.zipWith f (s.get a) (s.get b))) := by
  have key := DeconvFilter.forUp_fill s dst
    (fun j => f ((s.get a).getD j 0) ((s.get b).getD j 0))
    (fun i t =>
      (rdN (t.get a) i).bind (fun x =>
        (rdN (t.get b) i).bind (fun y => t.store dst i (f x y)))) (s.get dst)
    s._size 0 (s.get dst) rfl (by omega) (fun _ _ => rfl)
    (by
      intro j l2 _ hj2 hl2 hag
      have hja : j < (s.get a).length := by omega
      have hjb : j < (s.get b).length := by omega
      show (rdN ((s.put dst l2).get a) j).bind _ = _
      rw [DeconvFilter.rdN_put s dst a l2 j hja (hag j (le_refl j))]
      show (rdN ((s.put dst l2).get b) j).bind _ = _
      rw [DeconvFilter.rdN_put s dst b l2 j hjb (hag j (le_refl j))]
      show (s.put dst l2).store dst j _ = (s.put dst l2).store dst j
        (f ((s.get a).getD j 0) ((s.get b).getD j 0))
      rw [List.getD_eq_getElem _ _ hja, List.getD_eq_getElem _ _ hjb])
  rw [DeconvFilter.put_get] at key
  rw [key]
  congr 2
  apply List.ext_getElem?
  intro m
  rw [fill_getElem?]
  by_cases h : m < s._size
  · rw [if_pos (by omega), List.getElem?_zipWith,
      List.getElem?_eq_getElem (by omega : m < (s.get a).length),
      List.getElem?_eq_getElem (by omega : m < (s.get b).length),
      List.getD_eq_getElem _ _ (by omega : m < (s.get a).length),
      List.getD_eq_getElem _ _ (by omega : m < (s.get b).length)]
  · rw [if_neg (by omega), List.getElem?_eq_none (by omega), List.getElem?_eq_none]
    simp only [List.length_map, List.length_range, List.length_zipWith]
    omega

/-- A loop over `0 ≤ i < _size` that replaces `dst[i]` by `f dst[i]` leaves
`map f dst` in `dst`. -/
theorem DeconvFilter.mapLoop (s : DeconvFilter) (f : ℚ → ℚ) (dst : Arr)
    (body : Nat → DeconvFilter → Option DeconvFilter)
    (hbody : ∀ (t : DeconvFilter) (j : Nat) (hj : j < (t.get dst).length),
      body j t = t.store dst j (f (t.get dst)[j]))
    (hd : (s.get dst).length = s._size) :
    forUp body 0 s._size s = some (s.put dst ((s.get dst).map f)) := by
  have key := DeconvFilter.forUp_fill s dst
    (fun j => f ((s.get dst).getD j 0)) body (s.get dst)
    s._size 0 (s.get dst) rfl (by omega) (fun _ _ => rfl)
    (by
      intro j l2 _ hj2 hl2 hag
      have hj : j < l2.length := by omega
      rw [hbody _ j (by simpa using hj)]
      congr 2
      have h1 : l2[j]? = (s.get dst)[j]? := hag j (le_refl j)
      rw [List.getElem?_eq_getElem hj,
        List.getElem?_eq_getElem (by omega : j < (s.get dst).length)] at h1
      rw [List.getD_eq_getElem _ _ (by omega : j < (s.get dst).length)]
      simp only [DeconvFilter.get_put_same]
      exact Option.some.inj h1)
  rw [DeconvFilter.put_get] at key
  rw [key]
  congr 2
  apply List.ext_getElem?
  intro m
  rw [fill_getElem?]
  by_cases h : m < s._size
  · rw [if_pos (by omega), List.getElem?_map,
      List.getElem?_eq_getElem (by omega : m < (s.get dst).length),
      List.getD_eq_getElem _ _ (by omega : m < (s.get dst).length)]
    rfl
  · rw [if_neg (by omega), List.getElem?_eq_none (by omega), List.getElem?_eq_none]
    simp only [List.length_map, List.length_range, List.length_zipWith]
    omega

end DirectState

/-! ## The elementwise operators and the copy loops of the direct engine -/

section DirectOps

theorem DeconvFilter.divide_eq (s : DeconvFilter) (quotient dividend divisor : Arr)
    (hq : (s.get quotient).length = s._size) (ha : (s.get dividend).length = s._size)
    (hb : (s.get divisor).length = s._size) :
    s.divide quotient dividend divisor
      = some (s.put quotient
          (List.zipWith (fun a b => a / b) (s.get dividend) (s.get divisor))) :=
  DeconvFilter.zipLoop s (fun a b => a / b) quotient dividend divisor hq ha hb

theorem DeconvFilter.multiply_eq (s : DeconvFilter) (product factorA factorB : Arr)
    (hq : (s.get product).length = s._size) (ha : (s.get factorA).length = s._size)
    (hb : (s.get factorB).length = s._size) :
    s.multiply product factorA factorB
      = some (s.put product
          (List.zipWith (fun a b => a * b) (s.get factorA) (s.get factorB))) :=
  DeconvFilter.zipLoop s (fun a b => a * b) product factorA factorB hq ha hb

theorem DeconvFilter.saturate_eq (s : DeconvFilter) (image : Arr)
    (hd : (s.get image).length = s._size) :
    s.saturate image = some (s.put image ((s.get image).map clamp)) := by
  apply DeconvFilter.mapLoop s clamp image _ _ hd
  intro t j hj
  show (rdN (t.get image) j).bind _ = _
  rw [rdN_eq_some _ _ hj]
  show (if (t.get image)[j] > 255 then t.store image j 255
    else if (t.get image)[j] < 0 then t.store image j 0 else some t) = _
  unfold clamp
  by_cases h1 : (t.get image)[j] > 255
  · rw [if_pos h1, if_pos h1]
  · rw [if_neg h1, if_neg h1]
    by_cases h2 : (t.get image)[j] < 0
    · rw [if_pos h2, if_pos h2]
    · rw [if_neg h2, if_neg h2, DeconvFilter.store_self _ _ _ hj]

theorem DeconvFilter.scale_eq (s : DeconvFilter) (product : Arr) (scalar : ℚ)
    (hd : (s.get product).length = s._size) :
    s.scale product scalar = some (s.put product ((s.get product).map (fun v => v * scalar))) := by
  apply DeconvFilter.mapLoop s (fun v => v * scalar) product _ _ hd
  intro t j hj
  show (rdN (t.get product) j).bind _ = _
  rw [rdN_eq_some _ _ hj]
  rfl

theorem DeconvFilter.offset_eq (s : DeconvFilter) (product : Arr) (amount : ℚ)
    (hd : (s.get product).length = s._size) :
    s.offset product amount = some (s.put product ((s.get product).map (fun v => v + amount))) := by
  apply DeconvFilter.mapLoop s (fun v => v + amount) product _ _ hd
  intro t j hj
  show (rdN (t.get product) j).bind _ = _
  rw [rdN_eq_some _ _ hj]
  rfl

theorem fill_getD_eq (l d : List ℚ) (h : d.length = l.length) :
    fill (fun j => l.getD j 0) 0 d.length d = l := by
  apply List.ext_getElem?
  intro m
  rw [fill_getElem?]
  by_cases hm : m < d.length
  · rw [if_pos (by omega), List.getD_eq_getElem _ _ (by omega : m < l.length),
      List.getElem?_eq_getElem (by omega : m < l.length)]
  · rw [if_neg (by omega), List.getElem?_eq_none (by omega), List.getElem?_eq_none (by omega)]

theorem DeconvFilter.copyIn_eq (s : DeconvFilter) (hb : s.buffer.length = s._size)
    (hi : s.img.length = s._size) : s.copyIn = some (s.put Arr.img s.buffer) := by
  have key := DeconvFilter.forUp_fill s Arr.img (fun j => s.buffer.getD j 0)
    (fun index t =>
      (rdN (t.get _buffer) index).bind (fun v =>
        (t.store Arr.img index v).bind (fun s1 =>
          (rdN (s1.get _buffer) index).bind (fun w => s1.store orig index w)))) s.img
    s._size 0 s.img rfl (by omega) (fun _ _ => rfl)
    (by
      intro j l2 _ hj2 hl2 _
      have hjb : j < s.buffer.length := by omega
      have hjl : j < l2.length := by omega
      have e1 : (s.put Arr.img l2).get _buffer = s.buffer := rfl
      show (rdN ((s.put Arr.img l2).get _buffer) j).bind _ = _
      rw [e1, rdN_eq_some _ _ hjb]
      show ((s.put Arr.img l2).store Arr.img j s.buffer[j]).bind _ = _
      beta_reduce
      rw [List.getD_eq_getElem _ _ hjb,
        DeconvFilter.store_eq_some _ _ _ _ (by simpa using hjl)]
      show (rdN s.buffer j).bind _ = _
      rw [rdN_eq_some _ _ hjb]
      exact DeconvFilter.store_self
        ((s.put Arr.img l2).put Arr.img (((s.put Arr.img l2).get Arr.img).set j s.buffer[j]))
        orig j hjb)
  have e2 : s.put Arr.img s.img = s := rfl
  rw [e2] at key
  unfold DeconvFilter.copyIn
  rw [key, ← hi, fill_getD_eq s.buffer s.img (by omega)]

theorem DeconvFilter.copyOut_eq (s : DeconvFilter) (hb : s.buffer.length = s._size)
    (hi : s.img.length = s._size) : s.copyOut = some (s.put Arr.buffer s.img) := by
  have key := DeconvFilter.forUp_fill s Arr.buffer (fun j => s.img.getD j 0)
    (fun index t =>
      (rdN (t.get Arr.img) index).bind (fun v => t.store _buffer index v)) s.buffer
    s._size 0 s.buffer rfl (by omega) (fun _ _ => rfl)
    (by
      intro j l2 _ hj2 hl2 _
      have hji : j < s.img.length := by omega
      have e1 : (s.put Arr.buffer l2).get Arr.img = s.img := rfl
      show (rdN ((s.put Arr.buffer l2).get Arr.img) j).bind _ = _
      beta_reduce
      rw [e1, rdN_eq_some _ _ hji, List.getD_eq_getElem _ _ hji]
      rfl)
  have e2 : s.put Arr.buffer s.buffer = s := rfl
  rw [e2] at key
  unfold DeconvFilter.copyOut
  rw [key, ← hb, fill_getD_eq s.img s.buffer (by omega)]

theorem fill_zero_eq (d : List ℚ) : fill (fun _ => (0 : ℚ)) 0 d.length d
    = List.replicate d.length 0 := by
  apply List.ext_getElem?
  intro m
  rw [fill_getElem?]
  by_cases hm : m < d.length
  · rw [if_pos (by omega), List.getElem?_replicate, if_pos hm]
  · rw [if_neg (by omega), List.getElem?_eq_none (by omega), List.getElem?_replicate,
      if_neg hm]

/-- The first loop of `convolve` zeroes `result`. -/
theorem DeconvFilter.zero_eq (s : DeconvFilter) (result : Arr)
    (hr : (s.get result).length = s._size) :
    forUp (fun index t => t.store result index 0) 0 s._size s
      = some (s.put result (List.replicate s._size 0)) := by
  have key := DeconvFilter.forUp_fill s result (fun _ => (0 : ℚ))
    (fun index t => t.store result index 0) (s.get result)
    s._size 0 (s.get result) rfl (by omega) (fun _ _ => rfl)
    (by intro j l2 _ _ _ _; rfl)
  rw [DeconvFilter.put_get] at key
  rw [key, ← hr, fill_zero_eq]

end DirectOps

/-! ## `convolve` on states and on values -/

section ConvolveLift

theorem DeconvFilter.convolvePx_eq (s : DeconvFilter) (result input : Arr)
    (hne : input ≠ result) (x y py : Nat) (index : Int) :
    ∀ (n px pIndex : Nat) (res : List ℚ),
      DeconvFilter.convolvePx result input x y py index px n pIndex (s.put result res)
        = (convolvePxL s._psf s._width s._height s._psfWidth s._psfHeight (s.get input)
            x y py index px n pIndex res).map (fun r => (s.put result r.1, r.2)) := by
  intro n
  induction n with
  | zero => intro px pIndex res; rfl
  | succ n ih =>
    intro px pIndex res
    rw [DeconvFilter.convolvePx, convolvePxL]
    simp only [DeconvFilter.put_psf, DeconvFilter.put_width, DeconvFilter.put_height,
      DeconvFilter.put_psfWidth, DeconvFilter.put_psfHeight, DeconvFilter.get_put_same,
      DeconvFilter.get_put_ne _ _ _ _ hne, DeconvFilter.put_put]
    cases rdN s._psf pIndex with
    | none => rfl
    | some p =>
      dsimp only
      by_cases hp : p = 0
      · rw [if_pos hp, if_pos hp]
        exact ih _ _ _
      · rw [if_neg hp, if_neg hp]
        split
        · rfl
        · split
          · cases rd (s.get input) _ with
            | none => rfl
            | some v =>
              dsimp only
              cases rd res index with
              | none => rfl
              | some r =>
                dsimp only
                cases wr res index (r + v * p) with
                | none => rfl
                | some res1 =>
                  dsimp only
                  exact ih _ _ _
          · exact ih _ _ _

theorem DeconvFilter.convolvePy_eq (s : DeconvFilter) (result input : Arr)
    (hne : input ≠ result) (x y : Nat) (index : Int) :
    ∀ (n py pIndex : Nat) (res : List ℚ),
      DeconvFilter.convolvePy result input x y index py n pIndex (s.put result res)
        = (convolvePyL s._psf s._width s._height s._psfWidth s._psfHeight (s.get input)
            x y index py n pIndex res).map (fun r => (s.put result r.1, r.2)) := by
  intro n
  induction n with
  | zero => intro py pIndex res; rfl
  | succ n ih =>
    intro py pIndex res
    rw [DeconvFilter.convolvePy, convolvePyL, DeconvFilter.convolvePx_eq s result input hne]
    simp only [DeconvFilter.put_psfWidth]
    cases convolvePxL s._psf s._width s._height s._psfWidth s._psfHeight (s.get input)
        x y py index 0 s._psfWidth pIndex res with
    | none => rfl
    | some r =>
      obtain ⟨res1, pIndex1⟩ := r
      exact ih _ _ _

theorem DeconvFilter.convolvePixel_eq (s : DeconvFilter) (result input : Arr)
    (hne : input ≠ result) (y x : Nat) (res : List ℚ) :
    DeconvFilter.convolvePixel result input y x (s.put result res)
      = (convolvePixelL s._psf s._width s._height s._psfWidth s._psfHeight (s.get input)
          y x res).map (s.put result) := by
  unfold DeconvFilter.convolvePixel convolvePixelL
  simp only [DeconvFilter.put_psfHeight, DeconvFilter.put_width]
  rw [DeconvFilter.convolvePy_eq s result input hne]
  cases convolvePyL s._psf s._width s._height s._psfWidth s._psfHeight (s.get input) x y
      ((x : Int) + (y : Int) * (s._width : Int)) 0 s._psfHeight 0 res with
  | none => rfl
  | some r => rfl

/-- A loop on states whose passes act on one named array alone is the loop on
the contents of that array. -/
theorem DeconvFilter.forUp_lift (s : DeconvFilter) (p : Arr)
    (body : Nat → DeconvFilter → Option DeconvFilter) (bodyL : Nat → List ℚ → Option (List ℚ))
    (h : ∀ j res, body j (s.put p res) = (bodyL j res).map (s.put p)) :
    ∀ (k i : Nat) (res : List ℚ),
      forUp body i k (s.put p res) = (forUp bodyL i k res).map (s.put p) := by
  intro k
  induction k with
  | zero => intro i res; rfl
  | succ k ih =>
    intro i res
    rw [forUp_succ, forUp_succ, h]
    cases bodyL i res with
    | none => rfl
    | some r => exact ih _ _

/-- The source `convolve` on distinct arrays of `_size` elements: `result`
receives what the loops compute on values from an all-zero array, and no other
array changes. -/
theorem DeconvFilter.convolve_eq (s : DeconvFilter) (result input : Arr)
    (hne : input ≠ result) (hr : (s.get result).length = s._size) :
    s.convolve result input
      = (convolveL s._psf s._width s._height s._psfWidth s._psfHeight (s.get input)
          (List.replicate s._size 0)).map (s.put result) := by
  unfold DeconvFilter.convolve
  rw [DeconvFilter.zero_eq s result hr, Option.some_bind]
  unfold convolveL
  apply DeconvFilter.forUp_lift s result
  intro y res
  apply DeconvFilter.forUp_lift s result
  intro x res1
  exact DeconvFilter.convolvePixel_eq s result input hne y x res1

theorem DeconvFilter.convolved_eq (s : DeconvFilter) (input : List ℚ) :
    s.convolved input
      = convolveL s._psf s._width s._height s._psfWidth s._psfHeight input
          (List.replicate s._size 0) := by
  unfold DeconvFilter.convolved
  rw [DeconvFilter.convolve_eq _ Arr.scratch Arr.img (by decide) (by simp)]
  have e : ((s.put Arr.img input).put Arr.scratch (List.replicate s._size 0)).get Arr.img
      = input := rfl
  rw [e]
  simp only [DeconvFilter.put_psf, DeconvFilter.put_width, DeconvFilter.put_height,
    DeconvFilter.put_psfWidth, DeconvFilter.put_psfHeight, DeconvFilter.put_size]
  cases convolveL s._psf s._width s._height s._psfWidth s._psfHeight input
      (List.replicate s._size 0) with
  | none => rfl
  | some r => rfl

theorem DeconvFilter.convolved_congr {s t : DeconvFilter} (h : s.SameParams t)
    (input : List ℚ) : s.convolved input = t.convolved input := by
  obtain ⟨h1, h2, h3, h4, _, h6, h7⟩ := h
  rw [DeconvFilter.convolved_eq, DeconvFilter.convolved_eq, h1, h2, h3, h4, h6, h7]

/-- The source `convolve` in terms of `convolved`. -/
theorem DeconvFilter.convolve_eq_convolved (s : DeconvFilter) (result input : Arr)
    (hne : input ≠ result) (hr : (s.get result).length = s._size) :
    s.convolve result input = (s.convolved (s.get input)).map (s.put result) := by
  rw [DeconvFilter.convolve_eq s result input hne hr, DeconvFilter.convolved_eq]

end ConvolveLift

/-! ## Lengths are preserved by `convolve` -/

section ConvolveLength

theorem wrN_length {α : Type} (a b : List α) (i : Nat) (v : α) (h : wrN a i v = some b) :
    b.length = a.length := by
  unfold wrN at h
  split at h
  · cases h
    exact List.length_set _ _ _
  · cases h

theorem wr_length {α : Type} (a b : List α) (i : Int) (v : α) (h : wr a i v = some b) :
    b.length = a.length := by
  unfold wr at h
  split at h
  · exact wrN_length a b _ v h
  · cases h

theorem convolvePxL_length (psf : List ℚ) (w h pw ph : Nat) (input : List ℚ) (x y py : Nat)
    (index : Int) :
    ∀ (n px pIndex : Nat) (res : List ℚ) (r : List ℚ × Nat),
      convolvePxL psf w h pw ph input x y py index px n pIndex res = some r →
        r.1.length = res.length := by
  intro n
  induction n with
  | zero =>
    intro px pIndex res r hr
    rw [convolvePxL] at hr
    cases hr
    rfl
  | succ n ih =>
    intro px pIndex res r hr
    rw [convolvePxL] at hr
    cases hpsf : rdN psf pIndex with
    | none => rw [hpsf] at hr; cases hr
    | some p =>
      rw [hpsf] at hr
      dsimp only at hr
      split at hr
      · exact ih _ _ _ _ hr
      · split at hr
        · cases hr
          rfl
        · split at hr
          · cases hv : rd input
                ((x : Int) - ((pw / 2 : Nat) : Int) + (px : Int)
                  + (w : Int) * ((y : Int) - ((ph / 2 : Nat) : Int) + (py : Int))) with
            | none => rw [hv] at hr; cases hr
            | some v =>
              rw [hv] at hr
              dsimp only at hr
              cases hrr : rd res index with
              | none => rw [hrr] at hr; cases hr
              | some r0 =>
                rw [hrr] at hr
                dsimp only at hr
                cases hw : wr res index (r0 + v * p) with
                | none => rw [hw] at hr; cases hr
                | some res1 =>
                  rw [hw] at hr
                  dsimp only at hr
                  rw [ih _ _ _ _ hr]
                  exact wr_length _ _ _ _ hw
          · exact ih _ _ _ _ hr

theorem convolvePyL_length (psf : List ℚ) (w h pw ph : Nat) (input : List ℚ) (x y : Nat)
    (index : Int) :
    ∀ (n py pIndex : Nat) (res : List ℚ) (r : List ℚ × Nat),
      convolvePyL psf w h pw ph input x y index py n pIndex res = some r →
        r.1.length = res.length := by
  intro n
  induction n with
  | zero =>
    intro py pIndex res r hr
    rw [convolvePyL] at hr
    cases hr
    rfl
  | succ n ih =>
    intro py pIndex res r hr
    rw [convolvePyL] at hr
    cases hx : convolvePxL psf w h pw ph input x y py index 0 pw pIndex res with
    | none => rw [hx] at hr; cases hr
    | some r1 =>
      obtain ⟨res1, pIndex1⟩ := r1
      rw [hx] at hr
      dsimp only at hr
      rw [ih _ _ _ _ hr]
      exact convolvePxL_length psf w h pw ph input x y py index _ _ _ _ _ hx

theorem convolvePixelL_length (psf : List ℚ) (w h pw ph : Nat) (input : List ℚ) (y x : Nat)
    (res r : List ℚ) (hr : convolvePixelL psf w h pw ph input y x res = some r) :
    r.length = res.length := by
  unfold convolvePixelL at hr
  cases hy : convolvePyL psf w h pw ph input x y ((x : Int) + (y : Int) * (w : Int)) 0 ph 0
      res with
  | none => rw [hy] at hr; cases hr
  | some r1 =>
    rw [hy] at hr
    cases hr
    exact convolvePyL_length psf w h pw ph input x y _ _ _ _ _ _ hy

theorem convolveL_length (psf : List ℚ) (w h pw ph : Nat) (input res r : List ℚ)
    (hr : convolveL psf w h pw ph input res = some r) : r.length = res.length := by
  unfold convolveL at hr
  refine forUp_invariant _ (fun l => l.length = res.length) ?_ 1024 0 res r rfl hr
  intro y l1 l2 hl1 hrow
  refine forUp_invariant _ (fun l => l.length = res.length) ?_ 1024 0 l1 l2 hl1 hrow
  intro x l3 l4 hl3 hpix
  rw [convolvePixelL_length psf w h pw ph input y x l3 l4 hpix]
  exact hl3

theorem DeconvFilter.convolved_length (s : DeconvFilter) (input r : List ℚ)
    (h : s.convolved input = some r) : r.length = s._size := by
  rw [DeconvFilter.convolved_eq] at h
  rw [convolveL_length _ _ _ _ _ _ _ _ h, List.length_replicate]

end ConvolveLength

/-! ## One iteration and the whole of `process` (direct engine) -/

section DirectProcess

/-- The state an iteration leaves, from the two convolution results. -/
theorem DeconvFilter.iteration_eq (s : DeconvFilter) (h : s.WF) :
    s.iteration = (s.convolved s.img).bind (fun blurred =>
      (s.convolved (List.zipWith (fun a b => a / b) s.buffer blurred)).map (fun correction =>
        ((s.put Arr.scratch (List.zipWith (fun a b => a / b) s.buffer blurred)).put
          Arr.scratch2 correction).put Arr.img
            ((List.zipWith (fun a b => a * b) s.img correction).map clamp))) := by
  obtain ⟨hb, hi, hs, hs2⟩ := h
  unfold DeconvFilter.iteration
  rw [DeconvFilter.convolve_eq_convolved s Arr.scratch Arr.img (by decide) hs]
  have e0 : s.get Arr.img = s.img := rfl
  rw [e0]
  cases hc1 : s.convolved s.img with
  | none => rfl
  | some c1 =>
    have hc1len := DeconvFilter.convolved_length s _ _ hc1
    simp only [Option.map_some', Option.some_bind]
    rw [DeconvFilter.divide_eq _ Arr.scratch orig Arr.scratch
      (by simpa using hc1len) (by simpa using hb) (by simpa using hc1len)]
    simp only [Option.some_bind, DeconvFilter.put_put, DeconvFilter.get_put_same]
    have e1 : (s.put Arr.scratch c1).get orig = s.buffer := rfl
    rw [e1]
    rw [DeconvFilter.convolve_eq_convolved _ Arr.scratch2 Arr.scratch (by decide)
      (by simpa using hs2)]
    simp only [DeconvFilter.get_put_same]
    rw [DeconvFilter.convolved_congr (DeconvFilter.sameParams_put s Arr.scratch _)]
    cases hc2 : s.convolved (List.zipWith (fun a b => a / b) s.buffer c1) with
    | none => rfl
    | some c2 =>
      have hc2len := DeconvFilter.convolved_length s _ _ hc2
      simp only [Option.map_some', Option.some_bind]
      rw [DeconvFilter.multiply_eq _ Arr.img Arr.img Arr.scratch2
        (by simpa using hi) (by simpa using hi) (by simpa using hc2len)]
      simp only [Option.some_bind]
      rw [DeconvFilter.saturate_eq _ Arr.img (by simp [hi, hc2len, e0])]
      simp only [DeconvFilter.put_put, DeconvFilter.get_put_same]
      rfl


theorem forUp_const {σ : Type} (f : σ → Option σ) :
    ∀ (k i : Nat) (s : σ), forUp (fun _ t => f t) i k s = iterate f k s := by
  intro k
  induction k with
  | zero => intro i s; rfl
  | succ k ih =>
    intro i s
    rw [forUp_succ, iterate]
    cases f s with
    | none => rfl
    | some t => exact ih _ _

theorem DeconvFilter.rlStep_congr {s t : DeconvFilter} (h : s.SameParams t)
    (o img : List ℚ) : s.rlStep o img = t.rlStep o img := by
  unfold DeconvFilter.rlStep
  rw [DeconvFilter.convolved_congr h]
  cases t.convolved img with
  | none => rfl
  | some c => simp only [Option.some_bind, DeconvFilter.convolved_congr h]

theorem DeconvFilter.iteration_img (s : DeconvFilter) (h : s.WF) :
    s.iteration.map DeconvFilter.img = s.rlStep s.buffer s.img := by
  rw [DeconvFilter.iteration_eq s h]
  unfold DeconvFilter.rlStep
  cases s.convolved s.img with
  | none => rfl
  | some c1 =>
    simp only [Option.some_bind]
    cases s.convolved (List.zipWith (fun a b => a / b) s.buffer c1) with
    | none => rfl
    | some c2 => rfl

theorem DeconvFilter.iteration_some (s t : DeconvFilter) (h : s.WF)
    (ht : s.iteration = some t) :
    t.WF ∧ t.SameParams s ∧ t.buffer = s.buffer := by
  rw [DeconvFilter.iteration_eq s h] at ht
  obtain ⟨hb, hi, hs, hs2⟩ := h
  cases hc1 : s.convolved s.img with
  | none => rw [hc1] at ht; cases ht
  | some c1 =>
    rw [hc1] at ht
    simp only [Option.some_bind] at ht
    cases hc2 : s.convolved (List.zipWith (fun a b => a / b) s.buffer c1) with
    | none => rw [hc2] at ht; cases ht
    | some c2 =>
      rw [hc2] at ht
      simp only [Option.map_some', Option.some.injEq] at ht
      subst ht
      have l1 := DeconvFilter.convolved_length s _ _ hc1
      have l2 := DeconvFilter.convolved_length s _ _ hc2
      refine ⟨⟨hb, ?_, ?_, l2⟩, ⟨rfl, rfl, rfl, rfl, rfl, rfl, rfl⟩, rfl⟩
      · show ((List.zipWith (fun a b => a * b) s.img c2).map clamp).length = s._size
        rw [List.length_map, List.length_zipWith, hi, l2, Nat.min_self]
      · show (List.zipWith (fun a b => a / b) s.buffer c1).length = s._size
        rw [List.length_zipWith, hb, l1, Nat.min_self]

/-- After `n` passes of the iteration loop: the working image is the `n`-fold
iterate of the step, the caller's array (which is also `orig`) is as before. -/
theorem DeconvFilter.iterate_iteration :
    ∀ (n : Nat) (s : DeconvFilter), s.WF →
      (iterate DeconvFilter.iteration n s).map (fun t => (t.buffer, t.img))
          = (iterate (s.rlStep s.buffer) n s.img).map (fun im => (s.buffer, im)) ∧
        ∀ t, iterate DeconvFilter.iteration n s = some t → t.WF ∧ t.SameParams s := by
  intro n
  induction n with
  | zero =>
    intro s h
    refine ⟨rfl, ?_⟩
    intro t ht
    rw [iterate] at ht
    cases ht
    exact ⟨h, DeconvFilter.SameParams.refl s⟩
  | succ n ih =>
    intro s h
    rw [iterate, iterate, ← DeconvFilter.iteration_img s h]
    cases hit : s.iteration with
    | none => exact ⟨rfl, fun t ht => by cases ht⟩
    | some u =>
      obtain ⟨hu, hp, hbuf⟩ := DeconvFilter.iteration_some s u h hit
      obtain ⟨ih1, ih2⟩ := ih u hu
      simp only [Option.map_some', Option.some_bind]
      have e : u.rlStep u.buffer = s.rlStep s.buffer := by
        funext im
        rw [hbuf]
        exact DeconvFilter.rlStep_congr hp _ _
      rw [e, hbuf] at ih1
      refine ⟨ih1, ?_⟩
      intro t ht
      obtain ⟨h1, h2⟩ := ih2 t ht
      exact ⟨h1, DeconvFilter.SameParams.trans h2 hp⟩

theorem DeconvFilter.copyIn_iterations (s : DeconvFilter) (h : s.WF) (k : Nat) :
    (s.copyIn.bind (DeconvFilter.iterations k)).map (fun t => (t.get orig, t.img))
        = (iterate (s.rlStep s.buffer) k s.buffer).map (fun im => (s.buffer, im)) ∧
      ∀ t, s.copyIn.bind (DeconvFilter.iterations k) = some t → t.WF ∧ t.SameParams s := by
  obtain ⟨hb, hi, hs, hs2⟩ := h
  rw [DeconvFilter.copyIn_eq s hb hi, Option.some_bind]
  unfold DeconvFilter.iterations
  rw [forUp_const]
  have hwf : (s.put Arr.img s.buffer).WF := ⟨hb, hb, hs, hs2⟩
  obtain ⟨h1, h2⟩ := DeconvFilter.iterate_iteration k (s.put Arr.img s.buffer) hwf
  have e : (s.put Arr.img s.buffer).rlStep (s.put Arr.img s.buffer).buffer
      = s.rlStep s.buffer := by
    funext im
    exact DeconvFilter.rlStep_congr (DeconvFilter.sameParams_put s Arr.img _) _ _
  rw [e] at h1
  refine ⟨h1, ?_⟩
  intro t ht
  obtain ⟨h3, h4⟩ := h2 t ht
  exact ⟨h3, DeconvFilter.SameParams.trans h4 (DeconvFilter.sameParams_put s Arr.img _)⟩

theorem DeconvFilter.process_buffer (s : DeconvFilter) (h : s.WF) :
    s.process.map DeconvFilter.buffer = iterate (s.rlStep s.buffer) s._niter s.buffer := by
  obtain ⟨h1, h2⟩ := DeconvFilter.copyIn_iterations s h s._niter
  unfold DeconvFilter.process
  have e : s.copyIn.bind (fun s1 => (s1.iterations s1._niter).bind DeconvFilter.copyOut)
      = (s.copyIn.bind (DeconvFilter.iterations s._niter)).bind DeconvFilter.copyOut := by
    rw [DeconvFilter.copyIn_eq s h.1 h.2.1]
    rfl
  rw [e]
  cases hit : s.copyIn.bind (DeconvFilter.iterations s._niter) with
  | none =>
    rw [hit] at h1
    cases hrhs : iterate (s.rlStep s.buffer) s._niter s.buffer with
    | none => rfl
    | some im => rw [hrhs] at h1; cases h1
  | some t =>
    rw [hit] at h1
    obtain ⟨hwf, _⟩ := h2 t hit
    rw [Option.some_bind, DeconvFilter.copyOut_eq t hwf.1 hwf.2.1]
    cases hrhs : iterate (s.rlStep s.buffer) s._niter s.buffer with
    | none => rw [hrhs] at h1; cases h1
    | some im =>
      rw [hrhs] at h1
      simp only [Option.map_some', Option.some.injEq, Prod.mk.injEq] at h1
      rw [← h1.2]
      rfl

end DirectProcess

/-! ## `convolve` with the PSF `[1]` on a 1024 x 1024 image -/

section UnitPsf

theorem rd_natCast {α : Type} (l : List α) (n : Nat) (h : n < l.length) :
    rd l (n : Int) = some l[n] := by
  unfold rd
  rw [if_pos (Int.natCast_nonneg n), Int.toNat_natCast]
  exact rdN_eq_some l n h

theorem wr_natCast {α : Type} (l : List α) (n : Nat) (v : α) (h : n < l.length) :
    wr l (n : Int) v = some (l.set n v) := by
  unfold wr
  rw [if_pos (Int.natCast_nonneg n), Int.toNat_natCast]
  exact wrN_eq_some l n v h

theorem convolvePixelL_unit (w h : Nat) (input res : List ℚ) (y x : Nat)
    (hi : x + y * w < input.length) (hr : x + y * w < res.length) :
    convolvePixelL [1] w h 1 1 input y x res
      = some (res.set (x + y * w) (res[x + y * w] + input[x + y * w])) := by
  have e1 : ((x : Int) + (y : Int) * (w : Int)) = ((x + y * w : Nat) : Int) := by
    push_cast
    ring
  have e2 : ((x : Int) - ((1 / 2 : Nat) : Int) + ((0 : Nat) : Int)
      + (w : Int) * ((y : Int) - ((1 / 2 : Nat) : Int) + ((0 : Nat) : Int)))
      = ((x + y * w : Nat) : Int) := by
    have : (1 / 2 : Nat) = 0 := by decide
    rw [this]
    push_cast
    ring
  have hbreak : ¬ ((y : Int) - ((1 / 2 : Nat) : Int) + ((0 : Nat) : Int) < 0 ∧
      (y : Int) - ((1 / 2 : Nat) : Int) + ((0 : Nat) : Int) ≥ (h : Int)) := by
    omega
  have htest : (x : Int) - ((1 / 2 : Nat) : Int) + ((0 : Nat) : Int) ≥ 0 ∨
      (x : Int) - ((1 / 2 : Nat) : Int) + ((0 : Nat) : Int) < (w : Int) := by
    omega
  unfold convolvePixelL
  rw [convolvePyL, convolvePxL]
  have hp : rdN ([1] : List ℚ) 0 = some 1 := rfl
  rw [hp]
  dsimp only
  rw [if_neg (by norm_num : ¬ ((1 : ℚ) = 0)), if_neg hbreak, if_pos htest, e2, e1,
    rd_natCast input _ hi]
  dsimp only
  rw [rd_natCast res _ hr]
  dsimp only
  rw [wr_natCast res _ _ hr]
  dsimp only
  rw [convolvePxL]
  dsimp only
  rw [convolvePyL, mul_one]
  rfl

theorem fill_snoc {α : Type} (val : Nat → α) (i k : Nat) (l : List α) :
    fill val i (k + 1) l = (fill val i k l).set (i + k) (val (i + k)) := by
  apply List.ext_getElem?
  intro m
  rw [List.getElem?_set, fill_getElem?, fill_getElem?, fill_length]
  by_cases h1 : i + k = m
  · subst h1
    by_cases h2 : i + k < l.length
    · rw [if_pos rfl, if_pos h2, if_pos (by omega)]
    · rw [if_pos rfl, if_neg h2, if_neg (by omega)]
      exact List.getElem?_eq_none (by omega)
  · rw [if_neg h1]
    by_cases h3 : i ≤ m ∧ m < i + k ∧ m < l.length
    · rw [if_pos h3, if_pos (by omega)]
    · rw [if_neg h3, if_neg (by omega)]

/-- The row `y` of the pixel loops with the PSF `[1]`: the entries
`1024 * y + x0, ...` of the zeroed result receive the entries of `input`. -/
theorem convolveL_unit_row (h : Nat) (input : List ℚ) (hlen : input.length = 1024 * 1024)
    (y : Nat) (hy : y < 1024) :
    ∀ (k x0 : Nat), x0 + k ≤ 1024 →
      forUp (convolvePixelL [1] 1024 h 1 1 input y) x0 k
          (fill (fun j => input.getD j 0) 0 (1024 * y + x0) (List.replicate (1024 * 1024) 0))
        = some (fill (fun j => input.getD j 0) 0 (1024 * y + x0 + k)
            (List.replicate (1024 * 1024) 0)) := by
  intro k
  induction k with
  | zero => intro x0 _; rfl
  | succ k ih =>
    intro x0 hx
    have hidx : x0 + y * 1024 = 1024 * y + x0 := by omega
    have hi : x0 + y * 1024 < input.length := by omega
    have hr : x0 + y * 1024 < (fill (fun j => input.getD j 0) 0 (1024 * y + x0)
        (List.replicate (1024 * 1024) (0 : ℚ))).length := by
      rw [fill_length, List.length_replicate]
      omega
    rw [forUp_succ, convolvePixelL_unit 1024 h input _ y x0 hi hr, Option.some_bind]
    have hzero : (fill (fun j => input.getD j 0) 0 (1024 * y + x0)
        (List.replicate (1024 * 1024) (0 : ℚ)))[x0 + y * 1024] = 0 := by
      have h1 := fill_getElem? (fun j => input.getD j 0) (1024 * y + x0) 0
        (List.replicate (1024 * 1024) (0 : ℚ)) (x0 + y * 1024)
      rw [if_neg (by omega), List.getElem?_eq_getElem hr, List.getElem?_replicate,
        if_pos (by omega)] at h1
      exact Option.some.inj h1
    have hstep : (fill (fun j => input.getD j 0) 0 (1024 * y + x0)
        (List.replicate (1024 * 1024) (0 : ℚ))).set (x0 + y * 1024)
          ((fill (fun j => input.getD j 0) 0 (1024 * y + x0)
            (List.replicate (1024 * 1024) (0 : ℚ)))[x0 + y * 1024] + input[x0 + y * 1024])
        = fill (fun j => input.getD j 0) 0 (1024 * y + (x0 + 1))
            (List.replicate (1024 * 1024) (0 : ℚ)) := by
      rw [hzero, zero_add, show 1024 * y + (x0 + 1) = (1024 * y + x0) + 1 by omega, fill_snoc,
        Nat.zero_add, List.getD_eq_getElem _ _ (by omega : 1024 * y + x0 < input.length)]
      simp only [hidx]
    rw [hstep, ih (x0 + 1) (by omega)]
    congr 2
    omega

theorem convolveL_unit_rows (h : Nat) (input : List ℚ) (hlen : input.length = 1024 * 1024) :
    ∀ (k y0 : Nat), y0 + k ≤ 1024 →
      forUp (fun y r => forUp (convolvePixelL [1] 1024 h 1 1 input y) 0 1024 r) y0 k
          (fill (fun j => input.getD j 0) 0 (1024 * y0) (List.replicate (1024 * 1024) 0))
        = some (fill (fun j => input.getD j 0) 0 (1024 * (y0 + k))
            (List.replicate (1024 * 1024) 0)) := by
  intro k
  induction k with
  | zero => intro y0 _; rfl
  | succ k ih =>
    intro y0 hy
    rw [forUp_succ]
    have hrow := convolveL_unit_row h input hlen y0 (by omega) 1024 0 (by omega)
    rw [Nat.add_zero] at hrow
    rw [hrow, Option.some_bind,
      show 1024 * y0 + 1024 = 1024 * (y0 + 1) by omega, ih (y0 + 1) (by omega)]
    congr 2
    omega

/-- With the PSF `[1]` on a 1024 x 1024 image the loops of `convolve` copy the
input. -/
theorem convolveL_unit (h : Nat) (input : List ℚ) (hlen : input.length = 1024 * 1024) :
    convolveL [1] 1024 h 1 1 input (List.replicate (1024 * 1024) 0) = some input := by
  have key := convolveL_unit_rows h input hlen 1024 0 (by omega)
  unfold convolveL
  have e : fill (fun j => input.getD j 0) 0 (1024 * 0) (List.replicate (1024 * 1024) (0 : ℚ))
      = List.replicate (1024 * 1024) 0 := rfl
  rw [e] at key
  rw [key]
  have e2 := fill_getD_eq input (List.replicate (1024 * 1024) (0 : ℚ))
    (by rw [List.length_replicate, hlen])
  rw [List.length_replicate] at e2
  rw [show 1024 * (0 + 1024) = 1024 * 1024 by rfl, e2]

end UnitPsf

/-! ## `normalise` and the constructor of the direct engine -/

section Normalise

/-- A loop on one list whose pass `j` amounts to the write `l[j] = val j`. -/
theorem forUp_fill_list {α : Type} (val : Nat → α) (body : Nat → List α → Option (List α))
    (orig0 : List α) :
    ∀ (k i : Nat) (l : List α), l.length = orig0.length → i + k ≤ l.length →
      (∀ m, i ≤ m → l[m]? = orig0[m]?) →
      (∀ j (l2 : List α), i ≤ j → j < i + k → l2.length = orig0.length →
        (∀ m, j ≤ m → l2[m]? = orig0[m]?) → body j l2 = wrN l2 j (val j)) →
      forUp body i k l = some (fill val i k l) := by
  intro k
  induction k with
  | zero => intro i l _ _ _ _; rfl
  | succ k ih =>
    intro i l hlen hik hl hbody
    rw [forUp_succ, hbody i l (le_refl i) (by omega) hlen hl, wrN_eq_some _ _ _ (by omega),
      Option.some_bind]
    show forUp body (i + 1) k (l.set i (val i)) = some (fill val (i + 1) k (l.set i (val i)))
    apply ih (i + 1) (l.set i (val i))
    · rw [List.length_set]; exact hlen
    · rw [List.length_set]; omega
    · intro m hm
      rw [List.getElem?_set, if_neg (by omega)]
      exact hl m (by omega)
    · intro j l2 hj hj2 hl2 hag
      exact hbody j l2 (by omega) (by omega) hl2 hag

theorem sumLoop_eq (data : List ℚ) :
    ∀ (k i : Nat) (acc : ℚ), i + k ≤ data.length →
      forUp (fun j sum => (rdN data j).map (fun v => sum + v)) i k acc
        = some (acc + ((data.drop i).take k).sum) := by
  intro k
  induction k with
  | zero =>
    intro i acc _
    rw [forUp_zero, List.take_zero, List.sum_nil, add_zero]
  | succ k ih =>
    intro i acc hik
    have hi : i < data.length := by omega
    rw [forUp_succ, rdN_eq_some _ _ hi]
    show forUp _ (i + 1) k (acc + data[i]) = _
    rw [ih (i + 1) (acc + data[i]) (by omega), List.drop_eq_getElem_cons hi, List.take_succ_cons,
      List.sum_cons, add_assoc]

theorem normalise_eq (data : List ℚ) :
    normalise data data.length = some (data.map (fun v => v / data.sum)) := by
  unfold normalise
  rw [sumLoop_eq data data.length 0 0 (by omega), Option.some_bind, List.drop_zero,
    List.take_length, zero_add]
  rw [forUp_fill_list (fun j => data.getD j 0 / data.sum) _ data data.length 0 data rfl
    (by omega) (fun _ _ => rfl)]
  · congr 1
    apply List.ext_getElem?
    intro m
    rw [fill_getElem?]
    by_cases hm : m < data.length
    · rw [if_pos (by omega), List.getElem?_map, List.getElem?_eq_getElem hm,
        List.getD_eq_getElem _ _ hm]
      rfl
    · rw [if_neg (by omega), List.getElem?_eq_none (by omega), List.getElem?_eq_none]
      simp only [List.length_map]
      omega
  · intro j l2 _ hj2 hl2 hag
    have hj : j < l2.length := by omega
    have h1 : l2[j]? = data[j]? := hag j (le_refl j)
    rw [List.getElem?_eq_getElem hj, List.getElem?_eq_getElem (by omega : j < data.length)] at h1
    show (rdN l2 j).bind _ = _
    rw [rdN_eq_some _ _ hj, Option.some_bind, List.getD_eq_getElem _ _ (by omega : j < data.length),
      Option.some.inj h1]

theorem sum_map_div (data : List ℚ) (c : ℚ) :
    (data.map (fun v => v / c)).sum = data.sum / c := by
  induction data with
  | nil => simp
  | cons a l ih => rw [List.map_cons, List.sum_cons, List.sum_cons, ih, add_div]

/-- The constructor on a PSF of `psfWidth * psfHeight` elements: it never
fails, and stores the quotients of the PSF by its sum. -/
theorem DeconvFilter.construct_eq (width height niter : Nat) (inputPsf : List ℚ)
    (psfWidth psfHeight : Nat) (buffer : List ℚ) (init : Arr → Nat → ℚ)
    (hlen : inputPsf.length = psfWidth * psfHeight) :
    DeconvFilter.construct width height niter inputPsf psfWidth psfHeight buffer init
      = some
        { _width := width
          _height := height
          _psfWidth := psfWidth
          _psfHeight := psfHeight
          _niter := niter
          _size := width * height
          _psf := inputPsf.map (fun v => v / inputPsf.sum)
          buffer := buffer
          img := alloc (width * height) (init Arr.img)
          scratch := alloc (width * height) (init Arr.scratch)
          scratch2 := alloc (width * height) (init Arr.scratch2) } := by
  unfold DeconvFilter.construct
  dsimp only
  rw [if_neg (by omega), ← hlen, List.take_length, normalise_eq]
  rfl

theorem alloc_length (n : Nat) (init : Nat → ℚ) : (alloc n init).length = n := by
  unfold alloc
  rw [List.length_map, List.length_range]

end Normalise

/-! ## The copy loops of the transform engine -/

section FftCopy

theorem setRe_natCast (a : List fftw_complex) (n : Nat) (v : ℚ) (h : n < a.length) :
    setRe a (n : Int) v = some (a.set n (v, a[n].2)) := by
  unfold setRe
  rw [rd_natCast a n h, Option.some_bind, wr_natCast a n _ h]

theorem setIm_natCast (a : List fftw_complex) (n : Nat) (v : ℚ) (h : n < a.length) :
    setIm a (n : Int) v = some (a.set n (a[n].1, v)) := by
  unfold setIm
  rw [rd_natCast a n h, Option.some_bind, wr_natCast a n _ h]

theorem setRe_then_setIm (a : List fftw_complex) (n : Nat) (v w : ℚ) (h : n < a.length) :
    (setRe a (n : Int) v).bind (fun a1 => setIm a1 (n : Int) w) = some (a.set n (v, w)) := by
  rw [setRe_natCast a n v h, Option.some_bind,
    setIm_natCast _ n w (by rw [List.length_set]; exact h), List.getElem_set_self,
    List.set_set]

theorem DeconvFilterFFT.storeRe_in (s : DeconvFilterFFT) (i : Nat) (v : ℚ)
    (h : i < s.in_.length) :
    s.storeRe CArr.in_ i v = some { s with in_ := s.in_.set i (v, s.in_[i].2) } := by
  unfold DeconvFilterFFT.storeRe
  show (setRe s.in_ (i : Int) v).map _ = _
  rw [setRe_natCast _ _ _ h]
  rfl

theorem DeconvFilterFFT.storeRe_orig (s : DeconvFilterFFT) (i : Nat) (v : ℚ)
    (h : i < s.orig.length) :
    s.storeRe CArr.orig i v = some { s with orig := s.orig.set i (v, s.orig[i].2) } := by
  unfold DeconvFilterFFT.storeRe
  show (setRe s.orig (i : Int) v).map _ = _
  rw [setRe_natCast _ _ _ h]
  rfl

theorem DeconvFilterFFT.storeIm_in (s : DeconvFilterFFT) (i : Nat) (v : ℚ)
    (h : i < s.in_.length) :
    s.storeIm CArr.in_ i v = some { s with in_ := s.in_.set i (s.in_[i].1, v) } := by
  unfold DeconvFilterFFT.storeIm
  show (setIm s.in_ (i : Int) v).map _ = _
  rw [setIm_natCast _ _ _ h]
  rfl

theorem DeconvFilterFFT.storeIm_orig (s : DeconvFilterFFT) (i : Nat) (v : ℚ)
    (h : i < s.orig.length) :
    s.storeIm CArr.orig i v = some { s with orig := s.orig.set i (s.orig[i].1, v) } := by
  unfold DeconvFilterFFT.storeIm
  show (setIm s.orig (i : Int) v).map _ = _
  rw [setIm_natCast _ _ _ h]
  rfl

/-- One pass of the first loop of `process`. -/
theorem DeconvFilterFFT.copyIn_step (t : DeconvFilterFFT) (i : Nat)
    (hib : i < t._buffer.length) (hii : i < t.in_.length) (hio : i < t.orig.length) :
    (rdN t._buffer i).bind (fun v =>
      (t.storeRe CArr.in_ i v).bind (fun s1 =>
        (s1.storeRe CArr.orig i v).bind (fun s2 =>
          (s2.storeIm CArr.in_ i 0).bind (fun s3 =>
            s3.storeIm CArr.orig i 0))))
      = some { t with
          in_ := t.in_.set i (t._buffer[i], 0)
          orig := t.orig.set i (t._buffer[i], 0) } := by
  rw [rdN_eq_some _ _ hib, Option.some_bind, DeconvFilterFFT.storeRe_in t i _ hii,
    Option.some_bind]
  rw [DeconvFilterFFT.storeRe_orig, Option.some_bind, DeconvFilterFFT.storeIm_in,
    Option.some_bind, DeconvFilterFFT.storeIm_orig]
  rotate_left
  all_goals first
    | exact hio
    | (simp only [List.length_set]; first | exact hii | exact hio)
    | skip
  simp only [List.getElem_set_self, List.set_set]

/-- The state of the first loop of `process` after the passes `0, ..., i - 1`. -/
theorem DeconvFilterFFT.copyIn_loop (s : DeconvFilterFFT) (hb : s._buffer.length = s._size)
    (hi : s.in_.length = s._size) (ho : s.orig.length = s._size) :
    ∀ (k i : Nat), i + k ≤ s._size →
      forUp (fun i s =>
        (rdN s._buffer i).bind (fun v =>
          (s.storeRe CArr.in_ i v).bind (fun s1 =>
            (s1.storeRe CArr.orig i v).bind (fun s2 =>
              (s2.storeIm CArr.in_ i 0).bind (fun s3 =>
                s3.storeIm CArr.orig i 0))))) i k
          { s with
            in_ := fill (fun j => (s._buffer.getD j 0, (0 : ℚ))) 0 i s.in_
            orig := fill (fun j => (s._buffer.getD j 0, (0 : ℚ))) 0 i s.orig }
        = some
          { s with
            in_ := fill (fun j => (s._buffer.getD j 0, (0 : ℚ))) 0 (i + k) s.in_
            orig := fill (fun j => (s._buffer.getD j 0, (0 : ℚ))) 0 (i + k) s.orig } := by
  intro k
  induction k with
  | zero => intro i _; rfl
  | succ k ih =>
    intro i hik
    have hib : i < s._buffer.length := by omega
    rw [forUp_succ]
    have hstep := DeconvFilterFFT.copyIn_step
      { s with
        in_ := fill (fun j => (s._buffer.getD j 0, (0 : ℚ))) 0 i s.in_
        orig := fill (fun j => (s._buffer.getD j 0, (0 : ℚ))) 0 i s.orig } i hib
      (by rw [fill_length]; omega) (by rw [fill_length]; omega)
    rw [hstep, Option.some_bind]
    have e := ih (i + 1) (by omega)
    rw [fill_snoc, fill_snoc, Nat.zero_add, List.getD_eq_getElem _ _ hib] at e
    rw [show i + (k + 1) = i + 1 + k by omega]
    exact e

theorem DeconvFilterFFT.copyIn_fft_eq (s : DeconvFilterFFT) (hb : s._buffer.length = s._size)
    (hi : s.in_.length = s._size) (ho : s.orig.length = s._size) :
    s.copyIn = some
      { s with
        in_ := s._buffer.map (fun v => (v, (0 : ℚ)))
        orig := s._buffer.map (fun v => (v, (0 : ℚ))) } := by
  have key := DeconvFilterFFT.copyIn_loop s hb hi ho s._size 0 (by omega)
  have hfill : ∀ (d : List fftw_complex), d.length = s._size →
      fill (fun j => (s._buffer.getD j 0, (0 : ℚ))) 0 (0 + s._size) d
        = s._buffer.map (fun v => (v, (0 : ℚ))) := by
    intro d hd
    apply List.ext_getElem?
    intro m
    rw [fill_getElem?]
    by_cases hm : m < s._size
    · rw [if_pos (by omega), List.getElem?_map,
        List.getElem?_eq_getElem (by omega : m < s._buffer.length),
        List.getD_eq_getElem _ _ (by omega : m < s._buffer.length)]
      rfl
    · rw [if_neg (by omega), List.getElem?_eq_none (by omega), List.getElem?_eq_none]
      simp only [List.length_map]
      omega
  rw [hfill s.in_ hi, hfill s.orig ho] at key
  exact key

theorem DeconvFilterFFT.copyOut_loop (s : DeconvFilterFFT) (hb : s._buffer.length = s._size)
    (hi : s.in_.length = s._size) :
    ∀ (k i : Nat), i + k ≤ s._size →
      forUp (fun i s =>
        (rdN s.in_ i).bind (fun c =>
          (wrN s._buffer i c.1).map (fun b => { s with _buffer := b }))) i k
          { s with _buffer := fill (fun j => (s.in_.getD j (0, 0)).1) 0 i s._buffer }
        = some { s with _buffer := fill (fun j => (s.in_.getD j (0, 0)).1) 0 (i + k) s._buffer } := by
  intro k
  induction k with
  | zero => intro i _; rfl
  | succ k ih =>
    intro i hik
    have hii : i < s.in_.length := by omega
    rw [forUp_succ]
    dsimp only
    rw [rdN_eq_some _ _ hii, Option.some_bind, wrN_eq_some _ _ _ (by rw [fill_length]; omega)]
    simp only [Option.map_some', Option.some_bind]
    have e := ih (i + 1) (by omega)
    rw [fill_snoc, Nat.zero_add, List.getD_eq_getElem _ _ hii] at e
    rw [show i + (k + 1) = i + 1 + k by omega]
    exact e

theorem DeconvFilterFFT.copyOut_fft_eq (s : DeconvFilterFFT) (hb : s._buffer.length = s._size)
    (hi : s.in_.length = s._size) :
    s.copyOut = some { s with _buffer := s.in_.map Prod.fst } := by
  have key := DeconvFilterFFT.copyOut_loop s hb hi s._size 0 (by omega)
  have hfill : fill (fun j => (s.in_.getD j (0, 0)).1) 0 (0 + s._size) s._buffer
      = s.in_.map Prod.fst := by
    apply List.ext_getElem?
    intro m
    rw [fill_getElem?]
    by_cases hm : m < s._size
    · rw [if_pos (by omega), List.getElem?_map,
        List.getElem?_eq_getElem (by omega : m < s.in_.length),
        List.getD_eq_getElem _ _ (by omega : m < s.in_.length)]
      rfl
    · rw [if_neg (by omega), List.getElem?_eq_none (by omega), List.getElem?_eq_none]
      simp only [List.length_map]
      omega
  rw [hfill] at key
  exact key

/-- With no iteration the transform engine's `process` gives the caller's
array back. -/
theorem DeconvFilterFFT.process_zero (fft ifft : List fftw_complex → List fftw_complex)
    (s : DeconvFilterFFT) (hb : s._buffer.length = s._size) (hi : s.in_.length = s._size)
    (ho : s.orig.length = s._size) (h0 : s._niter = 0) :
    s.process fft ifft = some
      { s with
        in_ := s._buffer.map (fun v => (v, (0 : ℚ)))
        orig := s._buffer.map (fun v => (v, (0 : ℚ))) } := by
  unfold DeconvFilterFFT.process
  rw [DeconvFilterFFT.copyIn_fft_eq s hb hi ho, Option.some_bind]
  dsimp only
  rw [h0, forUp_zero, Option.some_bind,
    DeconvFilterFFT.copyOut_fft_eq _ (by exact hb) (by rw [List.length_map]; exact hb)]
  dsimp only
  rw [List.map_map]
  congr 2
  exact List.map_id _

end FftCopy

/-! ## The unit engine -/

section UnitEngine

theorem unitEngine_wf (n : Nat) (v : ℚ) : (unitEngine n v).WF :=
  ⟨List.length_replicate _ _, List.length_replicate _ _, List.length_replicate _ _,
    List.length_replicate _ _⟩

theorem DeconvFilter.convolved_unit (s : DeconvFilter) (hu : s.IsUnit1024) (input : List ℚ)
    (h : input.length = 1024 * 1024) : s.convolved input = some input := by
  obtain ⟨h1, h2, h3, h4, h5⟩ := hu
  rw [DeconvFilter.convolved_eq, h1, h2, h3, h4, h5]
  exact convolveL_unit _ input h

/-- On a 1024 x 1024 image with the PSF `[1]` the source `convolve` copies
`input` to `result`. -/
theorem DeconvFilter.convolve_unit (s : DeconvFilter) (hu : s.IsUnit1024) (result input : Arr)
    (hne : input ≠ result) (hr : (s.get result).length = s._size)
    (hi : (s.get input).length = s._size) :
    s.convolve result input = some (s.put result (s.get input)) := by
  rw [DeconvFilter.convolve_eq_convolved s result input hne hr,
    DeconvFilter.convolved_unit s hu _ (by rw [hi, hu.2.2.2.2])]
  rfl

theorem unitEngine_convolved (n : Nat) (v : ℚ) (input : List ℚ)
    (h : input.length = 1024 * 1024) : (unitEngine n v).convolved input = some input :=
  DeconvFilter.convolved_unit _ ⟨rfl, rfl, rfl, rfl, rfl⟩ input h

/-- On a 1024 x 1024 image with the PSF `[1]` an image with pixels in `(0, 255]`
is a fixed point of the step. -/
theorem DeconvFilter.rlStep_unit_fixed (s : DeconvFilter) (hu : s.IsUnit1024) (b : List ℚ)
    (hb : b.length = 1024 * 1024) (hpix : ∀ v ∈ b, 0 < v ∧ v ≤ 255) :
    s.rlStep b b = some b := by
  unfold DeconvFilter.rlStep
  rw [DeconvFilter.convolved_unit s hu b hb, Option.some_bind, List.zipWith_same,
    DeconvFilter.convolved_unit s hu _ (by rw [List.length_map]; exact hb), Option.map_some',
    List.zipWith_map_right, List.zipWith_same, List.map_map]
  congr 1
  have e : List.map (clamp ∘ fun a => a * (a / a)) b = List.map id b := by
    apply List.map_congr_left
    intro v hv
    obtain ⟨h0, h255⟩ := hpix v hv
    show clamp (v * (v / v)) = v
    rw [div_self (ne_of_gt h0), mul_one]
    unfold clamp
    rw [if_neg (not_lt.mpr h255), if_neg (not_lt.mpr (le_of_lt h0))]
  rw [e, List.map_id]

theorem DeconvFilter.iterate_unit_fixed (s : DeconvFilter) (hu : s.IsUnit1024) (b : List ℚ)
    (hb : b.length = 1024 * 1024) (hpix : ∀ v ∈ b, 0 < v ∧ v ≤ 255) :
    ∀ n : Nat, iterate (s.rlStep b) n b = some b := by
  intro n
  induction n with
  | zero => rfl
  | succ n ih => rw [iterate, DeconvFilter.rlStep_unit_fixed s hu b hb hpix, Option.some_bind, ih]

/-- On a 1024 x 1024 image with pixels in `(0, 255]` and the PSF `[1]`,
`process()` returns and leaves the image as it was. -/
theorem DeconvFilter.process_unit_fixed (s : DeconvFilter) (hu : s.IsUnit1024) (hwf : s.WF)
    (hpix : ∀ v ∈ s.buffer, 0 < v ∧ v ≤ 255) : ∃ t, s.process = some t ∧ t.buffer = s.buffer := by
  have hb : s.buffer.length = 1024 * 1024 := by rw [hwf.1, hu.2.2.2.2]
  have h := DeconvFilter.process_buffer s hwf
  rw [DeconvFilter.iterate_unit_fixed s hu s.buffer hb hpix] at h
  cases hp : s.process with
  | none => rw [hp] at h; cases h
  | some t =>
    rw [hp, Option.map_some', Option.some.injEq] at h
    exact ⟨t, rfl, h⟩

theorem DeconvFilter.construct_wf (width height niter : Nat) (inputPsf : List ℚ)
    (psfWidth psfHeight : Nat) (buffer : List ℚ) (init : Arr → Nat → ℚ) (e : DeconvFilter)
    (hb : buffer.length = width * height)
    (h : DeconvFilter.construct width height niter inputPsf psfWidth psfHeight buffer init
      = some e) : e.WF := by
  unfold DeconvFilter.construct at h
  dsimp only at h
  split at h
  · cases h
  · cases hn : normalise (List.take (psfWidth * psfHeight) inputPsf) (psfWidth * psfHeight) with
    | none => rw [hn] at h; cases h
    | some psf =>
      rw [hn, Option.map_some', Option.some.injEq] at h
      subst h
      exact ⟨hb, alloc_length _ _, alloc_length _ _, alloc_length _ _⟩

theorem unitEngine_rlStep (n : Nat) (v a b : ℚ) :
    (unitEngine n v).rlStep (List.replicate (1024 * 1024) a) (List.replicate (1024 * 1024) b)
      = some (List.replicate (1024 * 1024) (clamp (b * (a / b)))) := by
  unfold DeconvFilter.rlStep
  rw [unitEngine_convolved n v _ (List.length_replicate _ _), Option.some_bind,
    List.zipWith_replicate', unitEngine_convolved n v _ (List.length_replicate _ _),
    Option.map_some', List.zipWith_replicate', List.map_replicate]

theorem clamp_range (v : ℚ) : 0 ≤ clamp v ∧ clamp v ≤ 255 := by
  unfold clamp
  split
  · norm_num
  · split
    · norm_num
    · constructor <;> linarith

end UnitEngine

/-! ## The claims on `process` of the direct engine -/

section Claims

/-- C1. For an engine whose arrays have `_size` elements, `process()` leaves in
the caller's array exactly the `_niter`-fold iterate of the Richardson-Lucy
step `saturate(img * convolve(orig / convolve(img)))` started from the initial
contents `b` (and it has undefined behaviour exactly when the iterate has);
after any number `k` of passes of the loop, `orig` still holds `b` and `img`
holds the `k`-fold iterate. -/
theorem DeconvFilter.process_eq_iterate (s : DeconvFilter) (h : s.WF) :
    s.process.map DeconvFilter.buffer = iterate (s.rlStep s.buffer) s._niter s.buffer ∧
      ∀ k : Nat, (s.copyIn.bind (DeconvFilter.iterations k)).map (fun t => (t.get orig, t.img))
        = (iterate (s.rlStep s.buffer) k s.buffer).map (fun im => (s.buffer, im)) :=
  ⟨DeconvFilter.process_buffer s h, fun k => (DeconvFilter.copyIn_iterations s h k).1⟩

/-- Witness for C1: the 1024 x 1024 engine with the PSF `[1]` and two
iterations on an image of pixels 300; the iterate is the image of pixels 255. -/
theorem DeconvFilter.process_eq_iterate_witness :
    (unitEngine 2 300).WF ∧
      (unitEngine 2 300).process.map DeconvFilter.buffer
        = iterate ((unitEngine 2 300).rlStep (unitEngine 2 300).buffer) 2
            (unitEngine 2 300).buffer ∧
      iterate ((unitEngine 2 300).rlStep (unitEngine 2 300).buffer) 2
          (unitEngine 2 300).buffer = some (List.replicate (1024 * 1024) 255) := by
  refine ⟨unitEngine_wf 2 300,
    (DeconvFilter.process_eq_iterate (unitEngine 2 300) (unitEngine_wf 2 300)).1, ?_⟩
  show iterate ((unitEngine 2 300).rlStep (List.replicate (1024 * 1024) 300)) 2
    (List.replicate (1024 * 1024) 300) = _
  rw [iterate, unitEngine_rlStep, Option.some_bind, iterate, unitEngine_rlStep,
    Option.some_bind, iterate]
  have e1 : clamp ((300 : ℚ) * (300 / 300)) = 255 := by
    unfold clamp
    norm_num
  have e2 : clamp ((255 : ℚ) * (300 / 255)) = 255 := by
    unfold clamp
    norm_num
  rw [e1, e2]

/-- C2. With `_niter = 0`, `process()` returns and leaves the caller's array
as it was, element for element, in the direct engine and in the transform
engine. -/
theorem process_zero_iterations (s : DeconvFilter) (hs : s.WF) (h0 : s._niter = 0)
    (f : DeconvFilterFFT) (hf : f.WF) (hf0 : f._niter = 0)
    (fft ifft : List fftw_complex → List fftw_complex) :
    (∃ t, s.process = some t ∧ t.buffer = s.buffer) ∧
      (∃ u, f.process fft ifft = some u ∧ u._buffer = f._buffer) := by
  constructor
  · have h := DeconvFilter.process_buffer s hs
    rw [h0, iterate] at h
    cases hp : s.process with
    | none => rw [hp] at h; cases h
    | some t =>
      rw [hp, Option.map_some', Option.some.injEq] at h
      exact ⟨t, rfl, h⟩
  · exact ⟨_, DeconvFilterFFT.process_zero fft ifft f hf.1 hf.2.1 hf.2.2.2.1 hf0, rfl⟩

/-- Witness for C2: two 2 x 2 engines with no iteration. -/
theorem process_zero_iterations_witness :
    (∃ t, smallEngine.process = some t ∧ t.buffer = [-1, 0, 300, 7]) ∧
      (∃ u, smallEngineFFT.process id id = some u ∧ u._buffer = [-1, 0, 300, 7]) :=
  process_zero_iterations smallEngine ⟨rfl, rfl, rfl, rfl⟩ rfl smallEngineFFT
    ⟨rfl, rfl, rfl, rfl, rfl, rfl⟩ rfl id id

/-- C3. The direct engine at a 1024 x 1024 image of pixels 0 with the PSF `[1]`
and one iteration: after the copy-in and the first `convolve` of `process()`,
`orig` and `scratch` hold 0 everywhere, so the call
`divide(scratch, orig, scratch)` that follows computes `0 / 0` for every pixel.
That quotient has no value in exact arithmetic; on the machine it is a NaN,
which the second `convolve`, `multiply` and `saturate` leave in the image. -/
theorem DeconvFilter.process_zero_over_zero :
    ((unitEngine 1 0).copyIn.bind (DeconvFilter.convolve Arr.scratch Arr.img)).map
        (fun t => (t.get orig, t.get Arr.scratch))
      = some (List.replicate (1024 * 1024) 0, List.replicate (1024 * 1024) 0) := by
  rw [DeconvFilter.copyIn_eq (unitEngine 1 0) (List.length_replicate _ _)
      (List.length_replicate _ _), Option.some_bind,
    DeconvFilter.convolve_unit ((unitEngine 1 0).put Arr.img (unitEngine 1 0).buffer)
      ⟨rfl, rfl, rfl, rfl, rfl⟩ Arr.scratch Arr.img (by decide)
      (List.length_replicate _ _) (List.length_replicate _ _)]
  rfl

end Claims

/-! ## The claims on `convolve`, the constructor, `multVec` and `centrePsf` -/

section Claims2

/-- C4. The source `convolve` at the 2 x 2 image `[1, 2, 3, 4]` with the
normalised PSF `[1/3, 1/3, 1/3]` of width 3 and height 1: for the pixel
`(0, 0)` the tap `px = 0` has `absX = -1`, the test `absX >= 0 || absX < _width`
lets it through and `input[-1]` is read, outside the array; zero-padded
convolution would skip the tap and give `result[0] = 1/3 * 1 + 1/3 * 2`. -/
theorem DeconvFilter.convolve_reads_outside :
    rowEngine.convolvePixel Arr.scratch Arr.img 0 0 = none ∧
      rowEngine.convolve Arr.scratch Arr.img = none := by
  constructor <;> with_unfolding_all decide

/-- C5. The source `convolve` at the 2 x 2 image `[1, 2, 3, 4]` with the
unit-impulse PSF `[1]`: the loops run `x` up to 1023 whatever `_width` is, so
the pass `x = 4, y = 0` accesses index 4 of arrays of 4 elements; the pixels
`x = 0..3` of the row `y = 0` have by then produced `[1, 2, 3, 4]`. -/
theorem DeconvFilter.convolve_impulse_small :
    forUp (DeconvFilter.convolvePixel Arr.scratch Arr.img 0) 0 4 impulseEngine
        = some (impulseEngine.put Arr.scratch [1, 2, 3, 4]) ∧
      DeconvFilter.convolvePixel Arr.scratch Arr.img 0 4
        (impulseEngine.put Arr.scratch [1, 2, 3, 4]) = none ∧
      impulseEngine.convolve Arr.scratch Arr.img = none := by
  refine ⟨?_, ?_, ?_⟩ <;> with_unfolding_all decide

/-- C6. The scenario of the specification, a 4 x 4 image of pixels 100, the
PSF `[1.0]` and five iterations: the constructor succeeds and `process()` runs
into an access outside the 16-element arrays (in the first `convolve`, at
`x = 16, y = 0`). -/
theorem DeconvFilter.process_scenario :
    (DeconvFilter.construct 4 4 5 [1] 1 1 (List.replicate 16 100) (fun _ _ => 0)).isSome = true ∧
      (DeconvFilter.construct 4 4 5 [1] 1 1 (List.replicate 16 100) (fun _ _ => 0)).bind
        DeconvFilter.process = none := by
  constructor <;> with_unfolding_all decide

/-- C7. PSF normalisation: for a PSF of `psfWidth * psfHeight` elements with a
positive sum, `normalise` divides every element by the sum, the constructor
stores exactly these quotients, and the stored elements sum to 1. -/
theorem DeconvFilter.psf_normalised (width height niter : Nat) (inputPsf : List ℚ)
    (psfWidth psfHeight : Nat) (buffer : List ℚ) (init : Arr → Nat → ℚ)
    (hlen : inputPsf.length = psfWidth * psfHeight) (hpos : 0 < inputPsf.sum) :
    normalise inputPsf inputPsf.length = some (inputPsf.map (fun v => v / inputPsf.sum)) ∧
      ∃ e, DeconvFilter.construct width height niter inputPsf psfWidth psfHeight buffer init
          = some e ∧
        e._psf = inputPsf.map (fun v => v / inputPsf.sum) ∧ e._psf.sum = 1 := by
  refine ⟨normalise_eq inputPsf, _,
    DeconvFilter.construct_eq width height niter inputPsf psfWidth psfHeight buffer init hlen,
    rfl, ?_⟩
  show (inputPsf.map (fun v => v / inputPsf.sum)).sum = 1
  rw [sum_map_div]
  exact div_self (ne_of_gt hpos)

/-- Witness for C7: the PSF `[1, 2, 1]` of width 3 and height 1. -/
theorem DeconvFilter.psf_normalised_witness :
    normalise [1, 2, 1] 3 = some ([1, 2, 1].map (fun v => v / 4)) ∧
      ∃ e, DeconvFilter.construct 2 2 1 [1, 2, 1] 3 1 [1, 2, 3, 4] (fun _ _ => 0) = some e ∧
        e._psf = [1, 2, 1].map (fun v => v / 4) ∧ e._psf.sum = 1 := by
  have h := DeconvFilter.psf_normalised 2 2 1 [1, 2, 1] 3 1 [1, 2, 3, 4] (fun _ _ => 0) rfl
    (by norm_num)
  have e : ([1, 2, 1] : List ℚ).sum = 4 := by norm_num
  rw [e] at h
  exact h

/-- Counterexample to C8: the PSF `[1, -1]` sums to zero and the constructor
produces an engine. -/
theorem DeconvFilter.construct_zero_sum :
    DeconvFilter.construct 2 2 1 [1, -1] 2 1 [1, 2, 3, 4] (fun _ _ => 0) ≠ none := by
  with_unfolding_all decide

/-- C8 as amended. The constructor rejects no PSF, one whose elements sum to
zero included: for every PSF of `psfWidth * psfHeight` elements it produces an
engine with the given dimensions and a stored PSF of as many elements as the
input. -/
theorem DeconvFilter.construct_accepts_zero_sum (width height niter : Nat)
    (inputPsf : List ℚ) (psfWidth psfHeight : Nat) (buffer : List ℚ) (init : Arr → Nat → ℚ)
    (hlen : inputPsf.length = psfWidth * psfHeight) :
    ∃ e, DeconvFilter.construct width height niter inputPsf psfWidth psfHeight buffer init
        = some e ∧
      e._psf.length = inputPsf.length ∧ e._width = width ∧ e._height = height ∧
      e._psfWidth = psfWidth ∧ e._psfHeight = psfHeight ∧ e.buffer = buffer := by
  refine ⟨_,
    DeconvFilter.construct_eq width height niter inputPsf psfWidth psfHeight buffer init hlen,
    ?_, rfl, rfl, rfl, rfl, rfl⟩
  show (inputPsf.map (fun v => v / inputPsf.sum)).length = inputPsf.length
  exact List.length_map _ _

/-- Witness for C8 as amended: the PSF `[1, -1]`. -/
theorem DeconvFilter.construct_accepts_zero_sum_witness :
    ([1, -1] : List ℚ).sum = 0 ∧
      ∃ e, DeconvFilter.construct 2 2 1 [1, -1] 2 1 [1, 2, 3, 4] (fun _ _ => 0) = some e ∧
        e._psf.length = 2 ∧ e._width = 2 ∧ e._height = 2 ∧
        e._psfWidth = 2 ∧ e._psfHeight = 1 ∧ e.buffer = [1, 2, 3, 4] :=
  ⟨by norm_num,
    DeconvFilter.construct_accepts_zero_sum 2 2 1 [1, -1] 2 1 [1, 2, 3, 4] (fun _ _ => 0) rfl⟩

/-- C9. The source `multVec` with `n = 1`, `a = [1 + 2i]`, `b = [3 + 4i]`: with a
scale pointer to `2` the output is the unscaled product `-5 + 10i`, not
`-10 + 20i`; with a null scale pointer the source evaluates `*scale`. -/
theorem DeconvFilterFFT.multVec_scale_inverted :
    (multEngine.multVec CArr.orig CArr.in_ CArr.scratch 1 (some 2)).map DeconvFilterFFT.orig
        = some [(-5, 10)] ∧
      multEngine.multVec CArr.orig CArr.in_ CArr.scratch 1 none = none := by
  constructor <;> with_unfolding_all decide

/-- C10. The source `centrePsf` on a 4 x 4 array with the 3 x 3 PSF
`[1, ..., 9]` (centre tap 5): only the taps at and after the centre are stored,
the second stored row starts at index 5 and not at index 4, and the taps left
of and above the centre (1, 2, 3, 4, 7) are stored nowhere. -/
theorem centrePsf_three_by_three :
    centrePsf (List.replicate 16 (7, 7)) [1, 2, 3, 4, 5, 6, 7, 8, 9] 4 4 3 3
      = some [(5, 0), (6, 0), (0, 0), (0, 0), (0, 0), (8, 0), (9, 0), (0, 0),
          (0, 0), (0, 0), (0, 0), (0, 0), (0, 0), (0, 0), (0, 0), (0, 0)] := by
  with_unfolding_all decide

end Claims2

/-! ## The elementwise operators, `saturate` and the scratch arrays -/

section Claims3

theorem clamp_eq_min_max (v : ℚ) : clamp v = min 255 (max 0 v) := by
  unfold clamp
  by_cases h1 : v > 255
  · rw [if_pos h1, max_eq_right (by linarith), min_eq_left (le_of_lt h1)]
  · rw [if_neg h1]
    by_cases h2 : v < 0
    · rw [if_pos h2, max_eq_left (le_of_lt h2), min_eq_right (by norm_num)]
    · rw [if_neg h2, max_eq_right (not_lt.mp h2), min_eq_right (not_lt.mp h1)]

theorem clamp_of_mem_range (v : ℚ) (h0 : 0 ≤ v) (h255 : v ≤ 255) : clamp v = v := by
  unfold clamp
  rw [if_neg (not_lt.mpr h255), if_neg (not_lt.mpr h0)]

theorem clamp_idem (v : ℚ) : clamp (clamp v) = clamp v :=
  clamp_of_mem_range _ (clamp_range v).1 (clamp_range v).2

theorem zipWith_div_ones (l : List ℚ) :
    List.zipWith (fun a b => a / b) l (List.replicate l.length 1) = l := by
  apply List.ext_getElem?
  intro m
  rw [List.getElem?_zipWith, List.getElem?_replicate]
  by_cases hm : m < l.length
  · rw [if_pos hm, List.getElem?_eq_getElem hm]
    simp
  · rw [if_neg hm, List.getElem?_eq_none (by omega)]

theorem zipWith_mul_ones (l : List ℚ) :
    List.zipWith (fun a b => a * b) l (List.replicate l.length 1) = l := by
  apply List.ext_getElem?
  intro m
  rw [List.getElem?_zipWith, List.getElem?_replicate]
  by_cases hm : m < l.length
  · rw [if_pos hm, List.getElem?_eq_getElem hm]
    simp
  · rw [if_neg hm, List.getElem?_eq_none (by omega)]

/-- The state `process()` returns has the dimensions, iteration count and PSF it
started with. -/
theorem DeconvFilter.process_sameParams (s t : DeconvFilter) (h : s.WF)
    (ht : s.process = some t) : t.SameParams s := by
  unfold DeconvFilter.process at ht
  have e : s.copyIn.bind (fun s1 => (s1.iterations s1._niter).bind DeconvFilter.copyOut)
      = (s.copyIn.bind (DeconvFilter.iterations s._niter)).bind DeconvFilter.copyOut := by
    rw [DeconvFilter.copyIn_eq s h.1 h.2.1]
    rfl
  rw [e] at ht
  cases hit : s.copyIn.bind (DeconvFilter.iterations s._niter) with
  | none => rw [hit] at ht; cases ht
  | some u =>
    obtain ⟨hwf, hp⟩ := (DeconvFilter.copyIn_iterations s h s._niter).2 u hit
    rw [hit, Option.some_bind, DeconvFilter.copyOut_eq u hwf.1 hwf.2.1, Option.some.injEq] at ht
    rw [← ht]
    exact DeconvFilter.SameParams.trans (DeconvFilter.sameParams_put u Arr.buffer _) hp

/-- C13. The elementwise operators on arrays of `_size` elements: `divide` and
`multiply` store in element `i` the quotient and the product of the elements
`i` of their operands, `scale` and `offset` replace element `i` by its product
with the scalar and its sum with the amount; so dividing or multiplying by the
all-1 array gives the other operand, and `scale(v, 1)` and `offset(v, 0)` leave
the state as it was. -/
theorem DeconvFilter.elementwise_identities (s : DeconvFilter) (q v ones : Arr)
    (hq : (s.get q).length = s._size) (hv : (s.get v).length = s._size)
    (hones : (s.get ones).length = s._size) :
    s.divide q v ones
        = some (s.put q (List.zipWith (fun a b => a / b) (s.get v) (s.get ones))) ∧
      s.multiply q v ones
        = some (s.put q (List.zipWith (fun a b => a * b) (s.get v) (s.get ones))) ∧
      (∀ c : ℚ, s.scale v c = some (s.put v ((s.get v).map (fun x => x * c)))) ∧
      (∀ c : ℚ, s.offset v c = some (s.put v ((s.get v).map (fun x => x + c)))) ∧
      (s.get ones = List.replicate s._size 1 →
        s.divide q v ones = some (s.put q (s.get v)) ∧
          s.multiply q v ones = some (s.put q (s.get v))) ∧
      s.scale v 1 = some s ∧ s.offset v 0 = some s := by
  refine ⟨DeconvFilter.divide_eq s q v ones hq hv hones,
    DeconvFilter.multiply_eq s q v ones hq hv hones,
    fun c => DeconvFilter.scale_eq s v c hv, fun c => DeconvFilter.offset_eq s v c hv, ?_, ?_, ?_⟩
  · intro h1
    rw [DeconvFilter.divide_eq s q v ones hq hv hones,
      DeconvFilter.multiply_eq s q v ones hq hv hones, h1, ← hv, zipWith_div_ones,
      zipWith_mul_ones]
    exact ⟨rfl, rfl⟩
  · rw [DeconvFilter.scale_eq s v 1 hv]
    have e : (s.get v).map (fun x => x * 1) = s.get v :=
      List.map_id'' (fun x => mul_one x) _
    rw [e, DeconvFilter.put_get]
  · rw [DeconvFilter.offset_eq s v 0 hv]
    have e : (s.get v).map (fun x => x + 0) = s.get v :=
      List.map_id'' (fun x => add_zero x) _
    rw [e, DeconvFilter.put_get]

/-- Witness for C13: the image `[-2, 0, 300, 7]` in `img` and the all-1 array
in `scratch`, with the result in `scratch2`. -/
theorem DeconvFilter.elementwise_identities_witness :
    onesEngine.divide Arr.scratch2 Arr.img Arr.scratch
        = some (onesEngine.put Arr.scratch2 [-2, 0, 300, 7]) ∧
      onesEngine.multiply Arr.scratch2 Arr.img Arr.scratch
        = some (onesEngine.put Arr.scratch2 [-2, 0, 300, 7]) ∧
      onesEngine.scale Arr.img 1 = some onesEngine ∧
      onesEngine.offset Arr.img 0 = some onesEngine := by
  have h := DeconvFilter.elementwise_identities onesEngine Arr.scratch2 Arr.img Arr.scratch
    rfl rfl rfl
  exact ⟨(h.2.2.2.2.1 rfl).1, (h.2.2.2.2.1 rfl).2, h.2.2.2.2.2.1, h.2.2.2.2.2.2⟩

/-- C14. On an array of `_size` elements `saturate` replaces every element `x`
by `min 255 (max 0 x)`; an array whose elements lie in `[0, 255]` is left as
it was, and `saturate` after `saturate` is `saturate`. -/
theorem DeconvFilter.saturate_clamps (s : DeconvFilter) (image : Arr)
    (h : (s.get image).length = s._size) :
    s.saturate image
        = some (s.put image ((s.get image).map (fun x => min 255 (max 0 x)))) ∧
      ((∀ x ∈ s.get image, 0 ≤ x ∧ x ≤ 255) → s.saturate image = some s) ∧
      (s.saturate image).bind (DeconvFilter.saturate image) = s.saturate image := by
  have hsat := DeconvFilter.saturate_eq s image h
  refine ⟨?_, ?_, ?_⟩
  · rw [hsat]
    congr 2
    exact List.map_congr_left (fun x _ => clamp_eq_min_max x)
  · intro hr
    rw [hsat]
    have e : (s.get image).map clamp = (s.get image).map id :=
      List.map_congr_left (fun x hx => clamp_of_mem_range x (hr x hx).1 (hr x hx).2)
    rw [e, List.map_id, DeconvFilter.put_get]
  · rw [hsat, Option.some_bind,
      DeconvFilter.saturate_eq (s.put image ((s.get image).map clamp)) image
        (by rw [DeconvFilter.get_put_same, List.length_map, DeconvFilter.put_size]; exact h),
      DeconvFilter.get_put_same, DeconvFilter.put_put, List.map_map]
    congr 2
    exact List.map_congr_left (fun x _ => clamp_idem x)

/-- Witness for C14: `saturate(img)` on the image `[-2, 0, 300, 7]`. -/
theorem DeconvFilter.saturate_clamps_witness :
    onesEngine.saturate Arr.img = some (onesEngine.put Arr.img [0, 0, 255, 7]) ∧
      (onesEngine.saturate Arr.img).bind (DeconvFilter.saturate Arr.img)
        = onesEngine.saturate Arr.img := by
  have h := DeconvFilter.saturate_clamps onesEngine Arr.img rfl
  refine ⟨?_, h.2.2⟩
  rw [h.1]
  congr 2

/-- C18. Two states of the direct engine with the same dimensions, PSF,
iteration count and caller's image, whatever their arrays `img`, `scratch` and
`scratch2` hold, give the same output image (or both have undefined
behaviour); and the state `process()` returns has the PSF it started with. -/
theorem DeconvFilter.process_ignores_scratch (s t : DeconvFilter) (hs : s.WF) (ht : t.WF)
    (hp : s.SameParams t) (hb : s.buffer = t.buffer) :
    s.process.map DeconvFilter.buffer = t.process.map DeconvFilter.buffer ∧
      ∀ s1, s.process = some s1 → s1._psf = s._psf := by
  constructor
  · rw [DeconvFilter.process_buffer s hs, DeconvFilter.process_buffer t ht, hb, hp.2.2.2.2.1]
    have e : s.rlStep t.buffer = t.rlStep t.buffer := by
      funext im
      exact DeconvFilter.rlStep_congr hp _ _
    rw [e]
  · intro s1 h1
    exact (DeconvFilter.process_sameParams s s1 hs h1).2.2.2.2.2.2

/-- Witness for C18: the 1024 x 1024 engine with zeroed and with stale working
arrays, one iteration on an image of pixels 300. -/
theorem DeconvFilter.process_ignores_scratch_witness :
    (unitEngine 1 300).process.map DeconvFilter.buffer
        = (unitEngineStale 1 300).process.map DeconvFilter.buffer ∧
      ∀ s1, (unitEngine 1 300).process = some s1 → s1._psf = [1] :=
  DeconvFilter.process_ignores_scratch (unitEngine 1 300) (unitEngineStale 1 300)
    (unitEngine_wf 1 300)
    ⟨List.length_replicate _ _, List.length_replicate _ _, List.length_replicate _ _,
      List.length_replicate _ _⟩
    ⟨rfl, rfl, rfl, rfl, rfl, rfl, rfl⟩ rfl

end Claims3

/-! ## Linearity of `convolve` -/

section Linear

theorem rdN_lin (a b : ℚ) (u v : List ℚ) (i : Nat) :
    rdN (lin a b u v) i = (rdN u i).bind (fun x => (rdN v i).map (fun y => a * x + b * y)) := by
  unfold rdN lin
  rw [List.getElem?_zipWith]
  cases u[i]? with
  | none => rfl
  | some x =>
    cases v[i]? with
    | none => rfl
    | some y => rfl

theorem rd_lin (a b : ℚ) (u v : List ℚ) (i : Int) :
    rd (lin a b u v) i = (rd u i).bind (fun x => (rd v i).map (fun y => a * x + b * y)) := by
  unfold rd
  by_cases h : 0 ≤ i
  · rw [if_pos h, if_pos h, if_pos h]
    exact rdN_lin a b u v _
  · rw [if_neg h, if_neg h]
    rfl

theorem lin_set (a b : ℚ) (u v : List ℚ) (i : Nat) (x y : ℚ) :
    (lin a b u v).set i (a * x + b * y) = lin a b (u.set i x) (v.set i y) := by
  unfold lin
  apply List.ext_getElem?
  intro m
  rw [List.getElem?_set, List.getElem?_zipWith, List.getElem?_zipWith, List.getElem?_set,
    List.getElem?_set, List.length_zipWith]
  by_cases hm : i = m
  · subst hm
    rw [if_pos rfl, if_pos rfl, if_pos rfl]
    by_cases h1 : i < u.length
    · by_cases h2 : i < v.length
      · rw [if_pos h1, if_pos h2, if_pos (by omega)]
      · rw [if_pos h1, if_neg h2, if_neg (by omega)]
    · rw [if_neg h1, if_neg (by omega)]
  · rw [if_neg hm, if_neg hm, if_neg hm]

theorem wrN_lin (a b : ℚ) (u v : List ℚ) (i : Nat) (x y : ℚ) :
    wrN (lin a b u v) i (a * x + b * y)
      = (wrN u i x).bind (fun u1 => (wrN v i y).map (fun v1 => lin a b u1 v1)) := by
  unfold wrN
  have hl : (lin a b u v).length = min u.length v.length := by
    unfold lin
    exact List.length_zipWith _ _ _
  rw [hl]
  by_cases h1 : i < u.length
  · by_cases h2 : i < v.length
    · rw [if_pos h1, if_pos h2, if_pos (by omega), lin_set]
      rfl
    · rw [if_pos h1, if_neg h2, if_neg (by omega)]
      rfl
  · rw [if_neg h1, if_neg (by omega)]
    rfl

theorem wr_lin (a b : ℚ) (u v : List ℚ) (i : Int) (x y : ℚ) :
    wr (lin a b u v) i (a * x + b * y)
      = (wr u i x).bind (fun u1 => (wr v i y).map (fun v1 => lin a b u1 v1)) := by
  unfold wr
  by_cases h : 0 ≤ i
  · rw [if_pos h, if_pos h, if_pos h]
    exact wrN_lin a b u v _ x y
  · rw [if_neg h, if_neg h]
    rfl

/-- The loop over `px` leaves `pIndex` advanced by the number of taps: the
`break` is never taken. -/
theorem convolvePxL_snd (psf : List ℚ) (w h pw ph : Nat) (input : List ℚ) (x y py : Nat)
    (index : Int) :
    ∀ (n px pIndex : Nat) (res : List ℚ) (r : List ℚ × Nat),
      convolvePxL psf w h pw ph input x y py index px n pIndex res = some r →
        r.2 = pIndex + n := by
  intro n
  induction n with
  | zero =>
    intro px pIndex res r hr
    rw [convolvePxL] at hr
    cases hr
    rfl
  | succ n ih =>
    intro px pIndex res r hr
    rw [convolvePxL] at hr
    cases hpsf : rdN psf pIndex with
    | none => rw [hpsf] at hr; cases hr
    | some p =>
      rw [hpsf] at hr
      dsimp only at hr
      split at hr
      · rw [ih _ _ _ _ hr]; omega
      · split at hr
        · rename_i hbreak
          omega
        · split at hr
          · cases hv : rd input
                ((x : Int) - ((pw / 2 : Nat) : Int) + (px : Int)
                  + (w : Int) * ((y : Int) - ((ph / 2 : Nat) : Int) + (py : Int))) with
            | none => rw [hv] at hr; cases hr
            | some v =>
              rw [hv] at hr
              dsimp only at hr
              cases hrr : rd res index with
              | none => rw [hrr] at hr; cases hr
              | some r0 =>
                rw [hrr] at hr
                dsimp only at hr
                cases hw : wr res index (r0 + v * p) with
                | none => rw [hw] at hr; cases hr
                | some res1 =>
                  rw [hw] at hr
                  dsimp only at hr
                  rw [ih _ _ _ _ hr]; omega
          · rw [ih _ _ _ _ hr]; omega

theorem convolvePxL_lin (a b : ℚ) (psf : List ℚ) (w h pw ph : Nat) (u v : List ℚ)
    (x y py : Nat) (index : Int) :
    ∀ (n px pIndex : Nat) (ru rv : List ℚ),
      convolvePxL psf w h pw ph (lin a b u v) x y py index px n pIndex (lin a b ru rv)
        = (convolvePxL psf w h pw ph u x y py index px n pIndex ru).bind (fun r1 =>
            (convolvePxL psf w h pw ph v x y py index px n pIndex rv).map (fun r2 =>
              (lin a b r1.1 r2.1, r1.2))) := by
  intro n
  induction n with
  | zero => intro px pIndex ru rv; rfl
  | succ n ih =>
    intro px pIndex ru rv
    rw [convolvePxL, convolvePxL, convolvePxL]
    cases rdN psf pIndex with
    | none => rfl
    | some p =>
      dsimp only
      by_cases hp : p = 0
      · rw [if_pos hp, if_pos hp, if_pos hp]
        exact ih _ _ _ _
      · rw [if_neg hp, if_neg hp, if_neg hp]
        split
        · rfl
        · split
          · rw [rd_lin, rd_lin]
            cases rd u _ with
            | none => rfl
            | some xu =>
              cases rd v _ with
              | none =>
                simp only [Option.some_bind, Option.map_none']
                cases rd ru index with
                | none => rfl
                | some r1 =>
                  dsimp only
                  cases wr ru index (r1 + xu * p) with
                  | none => rfl
                  | some ru1 =>
                    dsimp only
                    cases convolvePxL psf w h pw ph u x y py index (px + 1) n (pIndex + 1)
                        ru1 with
                    | none => rfl
                    | some r => rfl
              | some xv =>
                simp only [Option.some_bind, Option.map_some']
                cases rd ru index with
                | none => rfl
                | some r1 =>
                  cases rd rv index with
                  | none =>
                    simp only [Option.some_bind, Option.map_none']
                    cases wr ru index (r1 + xu * p) with
                    | none => rfl
                    | some ru1 =>
                      dsimp only
                      cases convolvePxL psf w h pw ph u x y py index (px + 1) n (pIndex + 1)
                          ru1 with
                      | none => rfl
                      | some r => rfl
                  | some r2 =>
                    simp only [Option.some_bind, Option.map_some']
                    have e : a * r1 + b * r2 + (a * xu + b * xv) * p
                        = a * (r1 + xu * p) + b * (r2 + xv * p) := by ring
                    rw [e, wr_lin]
                    cases wr ru index (r1 + xu * p) with
                    | none => rfl
                    | some ru1 =>
                      cases wr rv index (r2 + xv * p) with
                      | none =>
                        simp only [Option.some_bind, Option.map_none']
                        cases convolvePxL psf w h pw ph u x y py index (px + 1) n
                            (pIndex + 1) ru1 with
                        | none => rfl
                        | some r => rfl
                      | some rv1 =>
                        simp only [Option.some_bind, Option.map_some']
                        exact ih _ _ _ _
          · exact ih _ _ _ _

theorem convolvePyL_lin (a b : ℚ) (psf : List ℚ) (w h pw ph : Nat) (u v : List ℚ)
    (x y : Nat) (index : Int) :
    ∀ (n py pIndex : Nat) (ru rv : List ℚ),
      convolvePyL psf w h pw ph (lin a b u v) x y index py n pIndex (lin a b ru rv)
        = (convolvePyL psf w h pw ph u x y index py n pIndex ru).bind (fun r1 =>
            (convolvePyL psf w h pw ph v x y index py n pIndex rv).map (fun r2 =>
              (lin a b r1.1 r2.1, r1.2))) := by
  intro n
  induction n with
  | zero => intro py pIndex ru rv; rfl
  | succ n ih =>
    intro py pIndex ru rv
    rw [convolvePyL, convolvePyL, convolvePyL, convolvePxL_lin]
    cases hu : convolvePxL psf w h pw ph u x y py index 0 pw pIndex ru with
    | none => rfl
    | some r1 =>
      obtain ⟨ru1, k1⟩ := r1
      cases hv : convolvePxL psf w h pw ph v x y py index 0 pw pIndex rv with
      | none =>
        simp only [Option.some_bind, Option.map_none']
        cases convolvePyL psf w h pw ph u x y index (py + 1) n k1 ru1 with
        | none => rfl
        | some r => rfl
      | some r2 =>
        obtain ⟨rv1, k2⟩ := r2
        have e1 : k1 = pIndex + pw := convolvePxL_snd _ _ _ _ _ _ _ _ _ _ _ _ _ _ _ hu
        have e2 : k2 = pIndex + pw := convolvePxL_snd _ _ _ _ _ _ _ _ _ _ _ _ _ _ _ hv
        subst e1
        subst e2
        simp only [Option.some_bind, Option.map_some']
        exact ih _ _ _ _

theorem convolvePixelL_lin (a b : ℚ) (psf : List ℚ) (w h pw ph : Nat) (u v : List ℚ)
    (y x : Nat) (ru rv : List ℚ) :
    convolvePixelL psf w h pw ph (lin a b u v) y x (lin a b ru rv)
      = (convolvePixelL psf w h pw ph u y x ru).bind (fun r1 =>
          (convolvePixelL psf w h pw ph v y x rv).map (fun r2 => lin a b r1 r2)) := by
  unfold convolvePixelL
  rw [convolvePyL_lin]
  cases convolvePyL psf w h pw ph u x y ((x : Int) + (y : Int) * (w : Int)) 0 ph 0 ru with
  | none => rfl
  | some r1 =>
    cases convolvePyL psf w h pw ph v x y ((x : Int) + (y : Int) * (w : Int)) 0 ph 0 rv with
    | none => rfl
    | some r2 => rfl

/-- A loop whose passes commute with the combination `lin a b` commutes with
it. -/
theorem forUp_lin (a b : ℚ) (bw bu bv : Nat → List ℚ → Option (List ℚ))
    (hb : ∀ j ru rv, bw j (lin a b ru rv)
      = (bu j ru).bind (fun r1 => (bv j rv).map (fun r2 => lin a b r1 r2))) :
    ∀ (k i : Nat) (ru rv : List ℚ),
      forUp bw i k (lin a b ru rv)
        = (forUp bu i k ru).bind (fun r1 => (forUp bv i k rv).map (fun r2 => lin a b r1 r2)) := by
  intro k
  induction k with
  | zero => intro i ru rv; rfl
  | succ k ih =>
    intro i ru rv
    rw [forUp_succ, forUp_succ, forUp_succ, hb]
    cases bu i ru with
    | none => rfl
    | some r1 =>
      cases bv i rv with
      | none =>
        simp only [Option.some_bind, Option.map_none', Option.none_bind]
        cases forUp bu (i + 1) k r1 with
        | none => rfl
        | some r => rfl
      | some r2 =>
        simp only [Option.some_bind, Option.map_some']
        exact ih _ _ _

theorem convolveL_lin (a b : ℚ) (psf : List ℚ) (w h pw ph : Nat) (u v ru rv : List ℚ) :
    convolveL psf w h pw ph (lin a b u v) (lin a b ru rv)
      = (convolveL psf w h pw ph u ru).bind (fun r1 =>
          (convolveL psf w h pw ph v rv).map (fun r2 => lin a b r1 r2)) := by
  unfold convolveL
  apply forUp_lin
  intro y r1 r2
  apply forUp_lin
  intro x r3 r4
  exact convolvePixelL_lin a b psf w h pw ph u v y x r3 r4

theorem lin_replicate_zero (a b : ℚ) (n : Nat) :
    lin a b (List.replicate n 0) (List.replicate n 0) = List.replicate n 0 := by
  unfold lin
  rw [List.zipWith_replicate']
  congr 1
  ring

/-- The source `convolve` commutes with elementwise combinations of inputs. -/
theorem DeconvFilter.convolved_lin (s : DeconvFilter) (a b : ℚ) (u v : List ℚ) :
    s.convolved (lin a b u v)
      = (s.convolved u).bind (fun r1 => (s.convolved v).map (fun r2 => lin a b r1 r2)) := by
  rw [DeconvFilter.convolved_eq, DeconvFilter.convolved_eq, DeconvFilter.convolved_eq]
  have e := convolveL_lin a b s._psf s._width s._height s._psfWidth s._psfHeight u v
    (List.replicate s._size 0) (List.replicate s._size 0)
  rw [lin_replicate_zero] at e
  exact e

theorem lin_zero_zero (r1 r2 : List ℚ) (h : r1.length = r2.length) :
    lin 0 0 r1 r2 = List.replicate r1.length 0 := by
  unfold lin
  apply List.ext_getElem?
  intro m
  rw [List.getElem?_zipWith, List.getElem?_replicate]
  by_cases hm : m < r1.length
  · rw [if_pos hm, List.getElem?_eq_getElem hm, List.getElem?_eq_getElem (by omega)]
    simp
  · rw [if_neg hm, List.getElem?_eq_none (by omega)]

theorem DeconvFilter.convolved_zero (s : DeconvFilter) (n : Nat) (r : List ℚ)
    (h : s.convolved (List.replicate n 0) = some r) : r = List.replicate s._size 0 := by
  have e := DeconvFilter.convolved_lin s 0 0 (List.replicate n 0) (List.replicate n 0)
  rw [lin_replicate_zero, h, Option.some_bind, Option.map_some', Option.some.injEq] at e
  rw [e, lin_zero_zero r r rfl, DeconvFilter.convolved_length s _ _ h]

end Linear

section Claims4

/-- C17. The source `convolve` is linear in its input: for every engine state
(PSF and dimensions) and all inputs `u`, `v` and scalars `a`, `b`, `convolve`
of `a * u + b * v` is `a * convolve(u) + b * convolve(v)` elementwise (and it
has undefined behaviour when `convolve(u)` or `convolve(v)` has); the result
for an all-zero image, when there is one, is the all-zero image. -/
theorem DeconvFilter.convolve_linear (s : DeconvFilter) (a b : ℚ) (u v : List ℚ) :
    s.convolved (lin a b u v)
        = (s.convolved u).bind (fun r1 => (s.convolved v).map (fun r2 => lin a b r1 r2)) ∧
      ∀ (n : Nat) (r : List ℚ),
        s.convolved (List.replicate n 0) = some r → r = List.replicate s._size 0 :=
  ⟨DeconvFilter.convolved_lin s a b u v, DeconvFilter.convolved_zero s⟩

/-- Witness for C17: on the 1024 x 1024 engine with the PSF `[1]`, the
combination `2 * u + 3 * v` of the images of pixels 1 and of pixels 5, and the
all-zero image. -/
theorem DeconvFilter.convolve_linear_witness :
    (unitEngine 1 0).convolved
          (lin 2 3 (List.replicate (1024 * 1024) 1) (List.replicate (1024 * 1024) 5))
        = some (lin 2 3 (List.replicate (1024 * 1024) 1) (List.replicate (1024 * 1024) 5)) ∧
      ∃ r, (unitEngine 1 0).convolved (List.replicate (1024 * 1024) 0) = some r ∧
        r = List.replicate (1024 * 1024) 0 := by
  have h := DeconvFilter.convolve_linear (unitEngine 1 0) 2 3 (List.replicate (1024 * 1024) 1)
    (List.replicate (1024 * 1024) 5)
  have hz := unitEngine_convolved 1 0 (List.replicate (1024 * 1024) 0)
    (List.length_replicate _ _)
  refine ⟨?_, _, hz, h.2 _ _ hz⟩
  rw [h.1, unitEngine_convolved 1 0 _ (List.length_replicate _ _),
    unitEngine_convolved 1 0 _ (List.length_replicate _ _)]
  rfl

end Claims4

/-! ## `multVec` in place -/

section FftState

@[simp] theorem DeconvFilterFFT.get_put_same_fft (s : DeconvFilterFFT) (p : CArr)
    (v : List fftw_complex) : (s.put p v).get p = v := by
  cases p <;> rfl

@[simp] theorem DeconvFilterFFT.get_put_ne_fft (s : DeconvFilterFFT) (p q : CArr)
    (v : List fftw_complex) (h : q ≠ p) : (s.put p v).get q = s.get q := by
  cases p <;> cases q <;> first | rfl | exact absurd rfl h

@[simp] theorem DeconvFilterFFT.put_put_fft (s : DeconvFilterFFT) (p : CArr)
    (v w : List fftw_complex) : (s.put p v).put p w = s.put p w := by
  cases p <;> rfl

@[simp] theorem DeconvFilterFFT.put_get_fft (s : DeconvFilterFFT) (p : CArr) :
    s.put p (s.get p) = s := by
  cases p <;> rfl

theorem DeconvFilterFFT.storeRe_eq (s : DeconvFilterFFT) (p : CArr) (i : Nat) (v : ℚ)
    (h : i < (s.get p).length) :
    s.storeRe p i v = some (s.put p ((s.get p).set i (v, (s.get p)[i].2))) := by
  unfold DeconvFilterFFT.storeRe
  rw [setRe_natCast _ _ _ h]
  rfl

theorem DeconvFilterFFT.storeIm_eq (s : DeconvFilterFFT) (p : CArr) (i : Nat) (v : ℚ)
    (h : i < (s.get p).length) :
    s.storeIm p i v = some (s.put p ((s.get p).set i ((s.get p)[i].1, v))) := by
  unfold DeconvFilterFFT.storeIm
  rw [setIm_natCast _ _ _ h]
  rfl

/-- The array `p` in a state that differs from `s0` only in `dst`, read at an
index where `dst` still has its original entry. -/
theorem DeconvFilterFFT.rdN_put_fft (s0 : DeconvFilterFFT) (dst p : CArr)
    (l2 : List fftw_complex) (j : Nat) (hj : j < (s0.get p).length)
    (hag : l2[j]? = (s0.get dst)[j]?) :
    rdN ((s0.put dst l2).get p) j = some (s0.get p)[j] := by
  by_cases hp : p = dst
  · subst hp
    rw [DeconvFilterFFT.get_put_same_fft]
    unfold rdN
    rw [hag]
    exact List.getElem?_eq_getElem hj
  · rw [DeconvFilterFFT.get_put_ne_fft _ _ _ _ hp]
    exact rdN_eq_some _ _ hj

theorem fill_set_comm {α : Type} (val : Nat → α) (k : Nat) (l : List α) (x : α) :
    fill val 0 k (l.set k x) = (fill val 0 k l).set k x := by
  apply List.ext_getElem?
  intro m
  rw [fill_getElem?, List.getElem?_set, List.getElem?_set, fill_getElem?, List.length_set,
    fill_length]
  by_cases h1 : k = m
  · subst h1
    rw [if_neg (by omega), if_pos rfl, if_pos rfl]
  · rw [if_neg h1, if_neg h1]

/-- A descending loop whose pass `i` amounts to the store `dst[i] = val i`
fills the entries `0, ..., j` of `dst`.  The pass may read `dst` itself: it is
only required to behave like the store on states whose `dst` still holds the
original entries up to `i`. -/
theorem DeconvFilterFFT.doWhileDown_fill (s0 : DeconvFilterFFT) (dst : CArr)
    (val : Nat → fftw_complex) (body : Nat → DeconvFilterFFT → Option DeconvFilterFFT)
    (orig0 : List fftw_complex) :
    ∀ (j : Nat) (l : List fftw_complex), l.length = orig0.length → j < l.length →
      (∀ m, m ≤ j → l[m]? = orig0[m]?) →
      (∀ i (l2 : List fftw_complex), i ≤ j → l2.length = orig0.length →
        (∀ m, m ≤ i → l2[m]? = orig0[m]?) →
        body i (s0.put dst l2) = some (s0.put dst (l2.set i (val i)))) →
      doWhileDown body j (s0.put dst l) = some (s0.put dst (fill val 0 (j + 1) l)) := by
  intro j
  induction j with
  | zero =>
    intro l hlen _ hl hbody
    rw [doWhileDown, hbody 0 l (le_refl 0) hlen hl]
    rfl
  | succ j ih =>
    intro l hlen hj hl hbody
    rw [doWhileDown, hbody (j + 1) l (le_refl _) hlen hl, Option.some_bind,
      ih (l.set (j + 1) (val (j + 1)))
        (by rw [List.length_set]; exact hlen)
        (by rw [List.length_set]; omega)
        (by
          intro m hm
          rw [List.getElem?_set, if_neg (by omega)]
          exact hl m (by omega))
        (by
          intro i l2 hi hl2 hag
          exact hbody i l2 (by omega) hl2 hag),
      fill_set_comm]
    have e := fill_snoc val 0 (j + 1) l
    rw [Nat.zero_add] at e
    rw [e]

/-- One pass of the complex loop of `multVec`: element `n` of `lval` becomes
the product of the elements `n` of `a` and `b` as they were, whether or not
`lval` is `a` or `b`. -/
theorem DeconvFilterFFT.multVecComplexBody_eq (s0 : DeconvFilterFFT) (lval a b : CArr)
    (n : Nat) (l2 : List fftw_complex) (hl : n < l2.length)
    (ha : n < (s0.get a).length) (hb : n < (s0.get b).length)
    (hag : l2[n]? = (s0.get lval)[n]?) :
    DeconvFilterFFT.multVecComplexBody lval a b n (s0.put lval l2)
      = some (s0.put lval (l2.set n (cmul (s0.get a)[n] (s0.get b)[n]))) := by
  unfold DeconvFilterFFT.multVecComplexBody
  rw [DeconvFilterFFT.rdN_put_fft s0 lval a l2 n ha hag, Option.some_bind,
    DeconvFilterFFT.rdN_put_fft s0 lval b l2 n hb hag, Option.some_bind]
  dsimp only
  rw [DeconvFilterFFT.storeIm_eq _ lval n _ (by rw [DeconvFilterFFT.get_put_same_fft]; exact hl),
    Option.some_bind, DeconvFilterFFT.storeRe_eq]
  · simp only [DeconvFilterFFT.get_put_same_fft, DeconvFilterFFT.put_put_fft,
      List.getElem_set_self, List.set_set]
    rfl
  · simp only [DeconvFilterFFT.get_put_same_fft, DeconvFilterFFT.put_put_fft, List.length_set]
    exact hl

/-- The source `multVec` in complex mode with a scale pointer that is not null:
the elements `0, ..., n - 1` of `lval` become the products of the elements of
`a` and `b` held before the call, nothing else changes. -/
theorem DeconvFilterFFT.multVec_complex_eq (s : DeconvFilterFFT) (lval a b : CArr) (n : Nat)
    (scale : ℚ) (hn : 0 < n) (hl : n ≤ (s.get lval).length) (ha : n ≤ (s.get a).length)
    (hb : n ≤ (s.get b).length) :
    s.multVec lval a b (n : Int) (some scale)
      = some (s.put lval
          (fill (fun i => cmul ((s.get a).getD i (0, 0)) ((s.get b).getD i (0, 0))) 0 n
            (s.get lval))) := by
  unfold DeconvFilterFFT.multVec
  dsimp only
  rw [if_pos (by omega)]
  have e : ((n : Int) - 1).toNat = n - 1 := by omega
  rw [e]
  have key := DeconvFilterFFT.doWhileDown_fill s lval
    (fun i => cmul ((s.get a).getD i (0, 0)) ((s.get b).getD i (0, 0)))
    (DeconvFilterFFT.multVecComplexBody lval a b) (s.get lval) (n - 1) (s.get lval) rfl
    (by omega) (fun _ _ => rfl)
    (by
      intro i l2 hi hl2 hag
      rw [DeconvFilterFFT.multVecComplexBody_eq s lval a b i l2 (by omega) (by omega)
        (by omega) (hag i (le_refl i))]
      beta_reduce
      rw [List.getD_eq_getElem _ _ (by omega : i < (s.get a).length),
        List.getD_eq_getElem _ _ (by omega : i < (s.get b).length)])
  rw [DeconvFilterFFT.put_get_fft, show n - 1 + 1 = n by omega] at key
  exact key

/-- An ascending loop whose pass `i` amounts to the store `dst[i] = val i`
fills the entries of `dst`; the pass is only required to behave like the store
on states whose `dst` still holds the original entries from `i` on. -/
theorem DeconvFilterFFT.forUp_fill_fft (s0 : DeconvFilterFFT) (dst : CArr)
    (val : Nat → fftw_complex) (body : Nat → DeconvFilterFFT → Option DeconvFilterFFT)
    (orig0 : List fftw_complex) :
    ∀ (k i : Nat) (l : List fftw_complex), l.length = orig0.length → i + k ≤ l.length →
      (∀ m, i ≤ m → l[m]? = orig0[m]?) →
      (∀ j (l2 : List fftw_complex), i ≤ j → j < i + k → l2.length = orig0.length →
        (∀ m, j ≤ m → l2[m]? = orig0[m]?) →
        body j (s0.put dst l2) = some (s0.put dst (l2.set j (val j)))) →
      forUp body i k (s0.put dst l) = some (s0.put dst (fill val i k l)) := by
  intro k
  induction k with
  | zero => intro i l _ _ _ _; rfl
  | succ k ih =>
    intro i l hlen hik hl hbody
    rw [forUp_succ, hbody i l (le_refl i) (by omega) hlen hl, Option.some_bind]
    show forUp body (i + 1) k (s0.put dst (l.set i (val i)))
      = some (s0.put dst (fill val (i + 1) k (l.set i (val i))))
    apply ih (i + 1) (l.set i (val i))
    · rw [List.length_set]; exact hlen
    · rw [List.length_set]; omega
    · intro m hm
      rw [List.getElem?_set, if_neg (by omega)]
      exact hl m (by omega)
    · intro j l2 hj hj2 hl2 hag
      exact hbody j l2 (by omega) (by omega) hl2 hag

/-- One pass of the loop of `divVec`: element `i` of `lval` becomes the pair of
guarded quotients of the elements `i` of `a` and `b` as they were, whether or
not `lval` is `a` or `b`. -/
theorem DeconvFilterFFT.divVec_body_eq (s0 : DeconvFilterFFT) (lval a b : CArr)
    (i : Nat) (l2 : List fftw_complex) (hl : i < l2.length)
    (ha : i < (s0.get a).length) (hb : i < (s0.get b).length)
    (hag : l2[i]? = (s0.get lval)[i]?) :
    (rdN ((s0.put lval l2).get a) i).bind (fun ai =>
      (rdN ((s0.put lval l2).get b) i).bind (fun bi =>
        ((s0.put lval l2).storeRe lval i (ai.1 / (bi.1 + EPS))).bind (fun s1 =>
          (rdN (s1.get a) i).bind (fun ai1 =>
            (rdN (s1.get b) i).bind (fun bi1 =>
              s1.storeIm lval i (ai1.2 / (bi1.2 + EPS)))))))
      = some (s0.put lval (l2.set i
          ((s0.get a)[i].1 / ((s0.get b)[i].1 + EPS),
            (s0.get a)[i].2 / ((s0.get b)[i].2 + EPS)))) := by
  have hd : i < (s0.get lval).length := by
    by_contra hc
    rw [List.getElem?_eq_getElem hl, List.getElem?_eq_none (by omega)] at hag
    cases hag
  have hl2 : l2[i] = (s0.get lval)[i] := by
    rw [List.getElem?_eq_getElem hl, List.getElem?_eq_getElem hd] at hag
    exact Option.some.inj hag
  have hsnd : ∀ (p : CArr) (hp : i < (s0.get p).length) (x : ℚ),
      ∃ c, rdN ((s0.put lval (l2.set i (x, l2[i].2))).get p) i = some c ∧
        c.2 = (s0.get p)[i].2 := by
    intro p hp x
    by_cases hpl : p = lval
    · subst hpl
      refine ⟨(x, l2[i].2), ?_, ?_⟩
      · rw [DeconvFilterFFT.get_put_same_fft]
        unfold rdN
        rw [List.getElem?_set, if_pos rfl, if_pos hl]
      · rw [hl2]
    · refine ⟨(s0.get p)[i], ?_, rfl⟩
      rw [DeconvFilterFFT.get_put_ne_fft _ _ _ _ hpl]
      exact rdN_eq_some _ _ hp
  rw [DeconvFilterFFT.rdN_put_fft s0 lval a l2 i ha hag, Option.some_bind,
    DeconvFilterFFT.rdN_put_fft s0 lval b l2 i hb hag, Option.some_bind,
    DeconvFilterFFT.storeRe_eq _ lval i _ (by rw [DeconvFilterFFT.get_put_same_fft]; exact hl),
    Option.some_bind]
  simp only [DeconvFilterFFT.get_put_same_fft, DeconvFilterFFT.put_put_fft]
  obtain ⟨c1, hc1, hc1b⟩ := hsnd a ha ((s0.get a)[i].1 / ((s0.get b)[i].1 + EPS))
  obtain ⟨c2, hc2, hc2b⟩ := hsnd b hb ((s0.get a)[i].1 / ((s0.get b)[i].1 + EPS))
  rw [hc1, Option.some_bind, hc2, Option.some_bind, DeconvFilterFFT.storeIm_eq]
  · simp only [DeconvFilterFFT.get_put_same_fft, DeconvFilterFFT.put_put_fft,
      List.getElem_set_self, List.set_set, hc1b, hc2b]
  · simp only [DeconvFilterFFT.get_put_same_fft, List.length_set]
    exact hl

/-- The source `divVec` on arrays of at least `n` elements: the elements
`0, ..., n - 1` of `lval` become the componentwise quotients
`a[i] / (b[i] + EPS)` of the values held before the call. -/
theorem DeconvFilterFFT.divVec_eq (s : DeconvFilterFFT) (lval a b : CArr) (n : Nat)
    (hl : n ≤ (s.get lval).length) (ha : n ≤ (s.get a).length)
    (hb : n ≤ (s.get b).length) :
    s.divVec lval a b (n : Int)
      = some (s.put lval
          (fill (fun i => (((s.get a).getD i (0, 0)).1 / (((s.get b).getD i (0, 0)).1 + EPS),
              ((s.get a).getD i (0, 0)).2 / (((s.get b).getD i (0, 0)).2 + EPS))) 0 n
            (s.get lval))) := by
  unfold DeconvFilterFFT.divVec
  rw [Int.toNat_natCast]
  have key := DeconvFilterFFT.forUp_fill_fft s lval
    (fun i => (((s.get a).getD i (0, 0)).1 / (((s.get b).getD i (0, 0)).1 + EPS),
      ((s.get a).getD i (0, 0)).2 / (((s.get b).getD i (0, 0)).2 + EPS)))
    (fun i s =>
      (rdN (s.get a) i).bind (fun ai =>
        (rdN (s.get b) i).bind (fun bi =>
          (s.storeRe lval i (ai.1 / (bi.1 + EPS))).bind (fun s1 =>
            (rdN (s1.get a) i).bind (fun ai1 =>
              (rdN (s1.get b) i).bind (fun bi1 =>
                s1.storeIm lval i (ai1.2 / (bi1.2 + EPS))))))))
    (s.get lval) n 0 (s.get lval) rfl (by omega) (fun _ _ => rfl)
    (by
      intro j l2 _ hj hl2 hag
      beta_reduce
      rw [DeconvFilterFFT.divVec_body_eq s lval a b j l2 (by omega) (by omega) (by omega)
        (hag j (le_refl j)),
        List.getD_eq_getElem _ _ (by omega : j < (s.get a).length),
        List.getD_eq_getElem _ _ (by omega : j < (s.get b).length)])
  rw [DeconvFilterFFT.put_get_fft] at key
  exact key

end FftState

section Claims5

/-- C16. The source `multVec` in complex mode, called with `n > 0` and a scale
pointer that is not null (as `process()` calls it) on arrays of at least `n`
elements: it returns, element `i < n` of `lval` is the complex product of the
elements `i` that `a` and `b` held before the call, also when `lval` is `a`,
`b` or both, no element of `lval` at an index `≥ n` changes, and no other
array changes. -/
theorem DeconvFilterFFT.multVec_in_place (s : DeconvFilterFFT) (lval a b : CArr) (n : Nat)
    (scale : ℚ) (hn : 0 < n) (hl : n ≤ (s.get lval).length) (ha : n ≤ (s.get a).length)
    (hb : n ≤ (s.get b).length) :
    ∃ t, s.multVec lval a b (n : Int) (some scale) = some t ∧
      (∀ (i : Nat) (x y : fftw_complex), i < n → (s.get a)[i]? = some x →
        (s.get b)[i]? = some y →
          (t.get lval)[i]? = some (x.1 * y.1 - x.2 * y.2, x.1 * y.2 + x.2 * y.1)) ∧
      (∀ i : Nat, n ≤ i → (t.get lval)[i]? = (s.get lval)[i]?) ∧
      (∀ p : CArr, p ≠ lval → t.get p = s.get p) ∧ t._buffer = s._buffer := by
  refine ⟨_, DeconvFilterFFT.multVec_complex_eq s lval a b n scale hn hl ha hb, ?_, ?_, ?_, ?_⟩
  · intro i x y hi hx hy
    rw [DeconvFilterFFT.get_put_same_fft, fill_getElem?, if_pos (by omega)]
    have hia : i < (s.get a).length := by omega
    have hib : i < (s.get b).length := by omega
    rw [List.getElem?_eq_getElem hia, Option.some.injEq] at hx
    rw [List.getElem?_eq_getElem hib, Option.some.injEq] at hy
    rw [List.getD_eq_getElem _ _ hia, List.getD_eq_getElem _ _ hib, hx, hy]
    rfl
  · intro i hi
    rw [DeconvFilterFFT.get_put_same_fft, fill_getElem?, if_neg (by omega)]
  · intro p hp
    exact DeconvFilterFFT.get_put_ne_fft _ _ _ _ hp
  · cases lval <;> rfl

/-- Witness for C16: the call `multVec(scratch, fftPsf, scratch, 1, &scale)` on
two-element arrays, `(5 + 6i) * (3 + 4i) = -9 + 38i`. -/
theorem DeconvFilterFFT.multVec_in_place_witness :
    ∃ t, multEngine2.multVec CArr.scratch CArr.fftPsf CArr.scratch 1 scaleArg = some t ∧
      t.scratch[0]? = some ((-9, 38) : fftw_complex) ∧
      t.scratch[1]? = some ((9, 10) : fftw_complex) ∧
      t.fftPsf = [(5, 6), (11, 12)] := by
  obtain ⟨t, h1, h2, h3, h4, _⟩ := DeconvFilterFFT.multVec_in_place multEngine2 CArr.scratch
    CArr.fftPsf CArr.scratch 1 0 (by decide) (by decide) (by decide) (by decide)
  refine ⟨t, h1, ?_, h3 1 (le_refl 1), h4 CArr.fftPsf (by decide)⟩
  have e := h2 0 (5, 6) (3, 4) (by decide) rfl rfl
  norm_num at e
  exact e

/-- C11. The source constructor of the transform engine stores
`conjFftPsf[i][1] = -fftPsf[i][0]`.  For a 1 x 1 image with the PSF `[1]` (whose
transform is itself) it stores `1 - 1i` where the conjugate of `1 + 0i` is
`1 + 0i`; for a transform with values `1 + 2i, 3 + 4i, 5 + 6i, 7 + 8i` it
stores `1 - 1i, 3 - 3i, 5 - 5i, 7 - 7i`. -/
theorem DeconvFilterFFT.construct_conjugate :
    (DeconvFilterFFT.construct id 1 1 0 [1] 1 1 [5] (fun _ _ => (7, 7))).map
        (fun s => (s.fftPsf, s.conjFftPsf)) = some ([(1, 0)], [(1, -1)]) ∧
      (DeconvFilterFFT.construct (fun _ => [(1, 2), (3, 4), (5, 6), (7, 8)]) 2 2 0 [1] 1 1
          [1, 2, 3, 4] (fun _ _ => (7, 7))).map (fun s => (s.fftPsf, s.conjFftPsf))
        = some ([(1, 2), (3, 4), (5, 6), (7, 8)], [(1, -1), (3, -3), (5, -5), (7, -7)]) := by
  constructor <;> with_unfolding_all decide

/-- C12. The source `divide` has no epsilon: with the dividend
`[-2, 0, 300, 7]` and the all-1 divisor it stores the dividend itself, not
`dividend[i] / (1 + 1e-6)`.  The source `divVec` has it: the dividend
`300 + 7i` with the divisor `1 + 1i` gives `300/(1 + 1e-6)` and `7/(1 + 1e-6)`,
and with the divisor `0 + 0i` it gives `300/1e-6` and `7/1e-6`. -/
theorem divide_without_epsilon :
    onesEngine.divide Arr.scratch2 Arr.img Arr.scratch
        = some (onesEngine.put Arr.scratch2 [-2, 0, 300, 7]) ∧
      (300 : ℚ) ≠ 300 / (1 + EPS) ∧
      (divEngine.divVec CArr.scratch CArr.orig CArr.scratch 1).map DeconvFilterFFT.scratch
        = some [(300 / (1 + EPS), 7 / (1 + EPS))] ∧
      (divEngine.divVec CArr.in_ CArr.orig CArr.in_ 1).map DeconvFilterFFT.in_
        = some [(300 / EPS, 7 / EPS)] := by
  refine ⟨?_, ?_, ?_, ?_⟩
  · with_unfolding_all decide
  · unfold EPS
    norm_num
  · have h := DeconvFilterFFT.divVec_eq divEngine CArr.scratch CArr.orig CArr.scratch 1
      (by decide) (by decide) (by decide)
    exact congrArg (Option.map DeconvFilterFFT.scratch) h
  · have h := DeconvFilterFFT.divVec_eq divEngine CArr.in_ CArr.orig CArr.in_ 1
      (by decide) (by decide) (by decide)
    refine Eq.trans (congrArg (Option.map DeconvFilterFFT.in_) h) ?_
    show some [((300 : ℚ) / (0 + EPS), (7 : ℚ) / (0 + EPS))] = _
    rw [zero_add]

/-- C15. The source `convolve` on a 3 x 3 image with a 2 x 2 PSF: for the pixel
`(0, 0)` the first tap has `absX = -1` and `absY = -1`, neither test stops it,
and `input[-4]` is read; the call has undefined behaviour. -/
theorem DeconvFilter.convolve_index_unsafe :
    quadEngine.convolvePixel Arr.scratch Arr.img 0 0 = none ∧
      quadEngine.convolve Arr.scratch Arr.img = none := by
  constructor <;> with_unfolding_all decide

/-- C19. The source `multVec` in real mode.  With `n = -1` on one-element arrays
it accesses index 1; on two-element arrays it touches the elements 1 and 0 and
writes the imaginary parts, leaving the real parts as they were; with `n = 0`
it writes `lval[0][1]`; with a null scale pointer it evaluates `*scale`. -/
theorem DeconvFilterFFT.multVec_real_mode :
    multEngine.multVec CArr.orig CArr.in_ CArr.scratch (-1) (some 2) = none ∧
      (multEngine2.multVec CArr.orig CArr.in_ CArr.scratch (-1) (some 2)).map
        DeconvFilterFFT.orig = some [(0, 3), (0, 63)] ∧
      (multEngine.multVec CArr.orig CArr.in_ CArr.scratch 0 (some 2)).map
        DeconvFilterFFT.orig = some [(0, 3)] ∧
      multEngine2.multVec CArr.orig CArr.in_ CArr.scratch (-1) none = none := by
  refine ⟨?_, ?_, ?_, ?_⟩ <;> with_unfolding_all decide

end Claims5

end Deconv
